import Mathlib

/-!
# Verification of the PO-Translator catalog codec

Shallow embedding of the PO file parser/generator from
`src/utils/aiService.ts` (`parsePOFile`, `parseBlock`, `extractString`,
`parseHeaders`, `generatePOFile`, `escapeString`, `parseTranslations`)
and the `updateTranslation` catalog update from `App.tsx`.

JavaScript strings are modelled as `List Char`.  JavaScript's `trim`,
`split`, `indexOf`, `slice`, regex replacement and the `/\n\n+/` block
splitter are modelled by explicit recursive functions below.
-/

abbrev Str := List Char

/-- The set of characters JavaScript `String.prototype.trim` removes and
that the `\s` regex class matches (WhiteSpace plus LineTerminator). -/
def isWS (c : Char) : Bool :=
  c = ' ' || c = '\t' || c = '\n' || c = '\r' || c = '\x0b' || c = '\x0c' ||
  c = '\u00A0' || c = '\u1680' ||
  ('\u2000' ≤ c && c ≤ '\u200A') ||
  c = '\u2028' || c = '\u2029' || c = '\u202F' || c = '\u205F' ||
  c = '\u3000' || c = '\uFEFF'

/-- JavaScript `s.trim()`. -/
def jsTrim (s : Str) : Str :=
  ((s.dropWhile isWS).reverse.dropWhile isWS).reverse

/-- Global replacement of the single character `c` by the string `r`
(JS `s.replace(/c/g, r)`). -/
def replaceC (c : Char) (r : Str) : Str → Str
  | [] => []
  | a :: s => (if a = c then r else [a]) ++ replaceC c r s

/-- Global left-to-right replacement of the two-character pattern `p q`
by the string `r` (JS `s.replace(/pq/g, r)` for a fixed two-char pattern). -/
def replace2 (p q : Char) (r : Str) : Str → Str
  | a :: b :: s =>
      if a = p ∧ b = q then r ++ replace2 p q r s
      else a :: replace2 p q r (b :: s)
  | s => s

/-- JS `pattern.isPrefixOf`-style check: `s.startsWith(pat)` with the
pattern given first. -/
def startsWith : Str → Str → Bool
  | [], _ => true
  | _ :: _, [] => false
  | p :: ps, c :: cs => p = c && startsWith ps cs

/-- JS `s.split('\n')`. -/
def splitNL : Str → List Str
  | [] => [[]]
  | c :: rest =>
      if c = '\n' then [] :: splitNL rest
      else
        match splitNL rest with
        | [] => [[c]]
        | p :: ps => (c :: p) :: ps

/-- JS `arr.join('\n')`. -/
def joinNL : List Str → Str
  | [] => []
  | [l] => l
  | l :: ls => l ++ '\n' :: joinNL ls

/-- JS `s.indexOf(':')` except that a missing colon yields `s.length`
instead of `-1`; the parser only ever tests `0 < idx` together with the
colon being present, which the pair `(colonIdx s, s.length)` captures. -/
def colonIdx : Str → Nat
  | [] => 0
  | c :: r => if c = ':' then 0 else colonIdx r + 1

/-- Scanner for `s.split(/\n\n+/)`: `cur` is the current piece in
reverse, `pend` counts newlines seen but not yet classified.  A run of
two or more newlines is a separator (greedy, as for the regex); a single
newline stays inside the piece. -/
def splitNNGo (cur : Str) (pend : Nat) : Str → List Str
  | [] =>
      if 2 ≤ pend then [cur.reverse, []]
      else if pend = 1 then [('\n' :: cur).reverse]
      else [cur.reverse]
  | c :: rest =>
      if c = '\n' then splitNNGo cur (pend + 1) rest
      else if 2 ≤ pend then cur.reverse :: splitNNGo [c] 0 rest
      else if pend = 1 then splitNNGo (c :: '\n' :: cur) 0 rest
      else splitNNGo (c :: cur) 0 rest

/-- JS `s.split(/\n\n+/)`: split on maximal runs of two or more
newlines. -/
def splitNN (s : Str) : List Str := splitNNGo [] 0 s

/-- Line-ending normalization from `parsePOFile`:
`content.replace(/\r\n/g, '\n').replace(/\r/g, '\n')`. -/
def normalizeEols (s : Str) : Str :=
  replaceC '\r' ['\n'] (replace2 '\r' '\n' ['\n'] s)

/-- The characters JS regex `.` refuses to match (line terminators). -/
def isLineTerm (c : Char) : Bool :=
  c = '\n' || c = '\r' || c = '\u2028' || c = '\u2029'

/-- The escape-removal chain of `extractString`, in source order:
`\n`, `\t`, `\r`, `\"`, `\\`. -/
def unescapePO (s : Str) : Str :=
  replace2 '\\' '\\' ['\\']
    (replace2 '\\' '\"' ['\"']
      (replace2 '\\' 'r' ['\r']
        (replace2 '\\' 't' ['\t']
          (replace2 '\\' 'n' ['\n'] s))))

/-- `extractString` from the source: match `^"(.*)"$` (where `.` excludes
line terminators and is greedy, so the match succeeds exactly when the
string starts and ends with a quote, has length at least two, and has no
line terminator strictly inside), unescape the payload; otherwise return
the input unchanged. -/
def extractString (quoted : Str) : Str :=
  if 2 ≤ quoted.length ∧ quoted.head? = some '\"' ∧
      quoted.getLast? = some '\"' ∧
      ((quoted.drop 1).dropLast.all fun c => !isLineTerm c) then
    unescapePO ((quoted.drop 1).dropLast)
  else quoted

/-- The escape-insertion chain of `escapeString`, in source order:
`\`, `"`, newline, tab, carriage return. -/
def escCore (str : Str) : Str :=
  replaceC '\r' ['\\', 'r']
    (replaceC '\t' ['\\', 't']
      (replaceC '\n' ['\\', 'n']
        (replaceC '\"' ['\\', '\"']
          (replaceC '\\' ['\\', '\\'] str))))

/-- `escapeString` from the source: escape `\`, `"`, newline, tab,
carriage return (in that order) and wrap in double quotes. -/
def escapeString (str : Str) : Str :=
  '\"' :: escCore str ++ ['\"']

inductive EStatus where
  | pending
  | translated
  | aiSuggested
deriving DecidableEq, Repr

structure TranslationEntry where
  id : Str
  msgid : Str
  msgstr : Str
  context : Option Str
  comments : Option Str
  status : EStatus
deriving DecidableEq, Repr

structure ParsedPO where
  headers : List (Str × Str)
  entries : List TranslationEntry
deriving DecidableEq, Repr

structure RawEntry where
  msgid : Str
  msgstr : Str
  context : Option Str
  comments : Option Str
deriving DecidableEq, Repr

inductive PField where
  | fmsgid
  | fmsgstr
  | fmsgctxt
deriving DecidableEq, Repr

/-- The mutable locals of `parseBlock` while scanning lines. -/
structure BState where
  msgid : Str
  msgstr : Str
  context : Option Str
  comments : Str
  cur : Option PField
deriving DecidableEq, Repr

def msgidKW : Str := ['m', 's', 'g', 'i', 'd', ' ']
def msgstrKW : Str := ['m', 's', 'g', 's', 't', 'r', ' ']
def msgctxtKW : Str := ['m', 's', 'g', 'c', 't', 'x', 't', ' ']

/-- One iteration of the line loop in `parseBlock`. -/
def blockStep (st : BState) (line : Str) : BState :=
  let trimmed := jsTrim line
  if trimmed = [] then st
  else if startsWith ['#'] trimmed then
    if startsWith ['#', '.'] trimmed then
      { st with comments := st.comments ++ jsTrim (trimmed.drop 2) ++ [' '] }
    else if startsWith ['#', ':'] trimmed then
      { st with comments := st.comments ++ jsTrim (trimmed.drop 2) ++ [' '] }
    else st
  else if startsWith msgctxtKW trimmed then
    { st with context := some (extractString (trimmed.drop 8)),
              cur := some .fmsgctxt }
  else if startsWith msgidKW trimmed then
    { st with msgid := extractString (trimmed.drop 6), cur := some .fmsgid }
  else if startsWith msgstrKW trimmed then
    { st with msgstr := extractString (trimmed.drop 7), cur := some .fmsgstr }
  else if startsWith ['\"'] trimmed ∧ trimmed.getLast? = some '\"' then
    let continued := extractString trimmed
    match st.cur with
    | some .fmsgid => { st with msgid := st.msgid ++ continued }
    | some .fmsgstr => { st with msgstr := st.msgstr ++ continued }
    | some .fmsgctxt =>
        { st with context := some (st.context.getD [] ++ continued) }
    | none => st
  else st

/-- `parseBlock` from the source (it always returns a record; the
`if (!entry)` guard in the caller is dead code). -/
def parseBlock (block : Str) : RawEntry :=
  let st := (splitNL block).foldl blockStep ⟨[], [], none, [], none⟩
  { msgid := st.msgid, msgstr := st.msgstr, context := st.context,
    comments := if jsTrim st.comments = [] then none
                else some (jsTrim st.comments) }

/-- JS object assignment `headers[key] = value`: replace in place if the
key exists (keeping its insertion position), otherwise append. -/
def setKey (headers : List (Str × Str)) (k v : Str) : List (Str × Str) :=
  match headers with
  | [] => [(k, v)]
  | (k', v') :: rest =>
      if k' = k then (k, v) :: rest else (k', v') :: setKey rest k v

/-- One line of `parseHeaders`. -/
def headerStep (hs : List (Str × Str)) (line : Str) : List (Str × Str) :=
  let i := colonIdx line
  if 0 < i ∧ i < line.length then
    setKey hs (jsTrim (line.take i)) (jsTrim (line.drop (i + 1)))
  else hs

/-- `parseHeaders` from the source, reframed as a fold over the shared
headers mapping. -/
def parseHeaders (headerStr : Str) (headers : List (Str × Str)) :
    List (Str × Str) :=
  (splitNL headerStr).foldl headerStep headers

/-- One iteration of the block loop in `parsePOFile`. -/
def poStep (po : ParsedPO) (block : Str) : ParsedPO :=
  if jsTrim block = [] then po
  else
    let entry := parseBlock block
    if entry.msgid = [] then
      { po with headers := parseHeaders entry.msgstr po.headers }
    else
      { po with entries := po.entries ++ [{
          id := entry.context.getD [] ++ '_' :: entry.msgid,
          msgid := entry.msgid,
          msgstr := entry.msgstr,
          context := entry.context,
          comments := entry.comments,
          status := if entry.msgstr = [] then .pending else .translated }] }

/-- `parsePOFile` from the source. -/
def parsePOFile (content : Str) : ParsedPO :=
  (splitNN (normalizeEols content)).foldl poStep ⟨[], []⟩

/-- Fixed leading comment emitted by `generatePOFile`. -/
def hdrComment : Str :=
  ['#', ' ', 'T', 'r', 'a', 'n', 's', 'l', 'a', 't', 'i', 'o', 'n',
   ' ', 'F', 'i', 'l', 'e']

/-- One generated header line: `"key: value\n"` with a literal
backslash-n inside the quotes. -/
def headerLine (kv : Str × Str) : Str :=
  '\"' :: (kv.1 ++ ':' :: ' ' :: kv.2 ++ ['\\', 'n', '\"'])

/-- The lines `generatePOFile` emits for one entry (comment and context
lines only when the field is truthy, then msgid, msgstr and a blank
separator line). -/
def entryLines (e : TranslationEntry) : List Str :=
  (match e.comments with
   | some c => if c = [] then [] else [['#', '.', ' '] ++ c]
   | none => []) ++
  (match e.context with
   | some c => if c = [] then [] else [msgctxtKW ++ escapeString c]
   | none => []) ++
  [msgidKW ++ escapeString e.msgid, msgstrKW ++ escapeString e.msgstr, []]

/-- `generatePOFile` from the source. -/
def generatePOFile (data : ParsedPO) : Str :=
  let hl := joinNL (data.headers.map headerLine)
  joinNL
    ([hdrComment, msgidKW ++ ['\"', '\"'], msgstrKW ++ ['\"', '\"']] ++
     (if hl = [] then [] else [hl]) ++
     [[]] ++
     data.entries.flatMap entryLines)

/-- `updateTranslation` from `App.tsx`, as the pure catalog update it
performs on the `poData` state. -/
def updateTranslation (po : ParsedPO) (i newMsgstr : Str) : ParsedPO :=
  { po with entries := po.entries.map fun e =>
      if e.id = i then
        { e with msgstr := newMsgstr,
                 status := if newMsgstr = [] then .pending
                           else .translated }
      else e }

/-- Leading-numbering strip from `parseTranslations`:
`replace(/^\d+[\.\)]\s*\x7b0,1\x7d/...)` — more precisely
`^\d+[\.\)]\s*`. -/
def stripNumbering (s : Str) : Str :=
  let digits := s.takeWhile fun c => c.isDigit
  let rest := s.dropWhile fun c => c.isDigit
  if digits ≠ [] then
    match rest with
    | c :: r => if c = '.' ∨ c = ')' then r.dropWhile isWS else s
    | [] => s
  else s

/-- Leading-bullet strip from `parseTranslations`: `^[-•*]\s*`. -/
def stripBullet (s : Str) : Str :=
  match s with
  | c :: r => if c = '-' ∨ c = '\u2022' ∨ c = '*' then r.dropWhile isWS else s
  | [] => s

/-- Surrounding-quote strip from `parseTranslations`. -/
def stripQuotes (s : Str) : Str :=
  if (s.head? = some '\"' ∧ s.getLast? = some '\"') ∨
     (s.head? = some '\'' ∧ s.getLast? = some '\'') then
    (s.drop 1).dropLast
  else s

/-- `parseTranslations` from the source. -/
def parseTranslations (content : Str) : List Str :=
  (((splitNL content).map fun line =>
      stripQuotes (jsTrim (stripBullet (stripNumbering line)))).filter
    fun l => 0 < l.length).take 3

/-- Per-character view of the escape chain of `escapeString` (the five
sequential replacements act on disjoint character sets, so they compose
to this character map). -/
def escChar (c : Char) : Str :=
  if c = '\\' then ['\\', '\\']
  else if c = '\"' then ['\\', '\"']
  else if c = '\n' then ['\\', 'n']
  else if c = '\t' then ['\\', 't']
  else if c = '\r' then ['\\', 'r']
  else [c]

/-- `noSeq a b s`: the two-character sequence `a b` does not occur in
`s`. -/
def noSeq (a b : Char) : Str → Bool
  | x :: y :: r => !(x == a && y == b) && noSeq a b (y :: r)
  | _ => true

/-- Strings on which the escape/unescape pair is inverse: no literal
backslash immediately followed by `n`, `t` or `r`, and no U+2028/U+2029
(which JS regex `.` refuses to match, defeating `extractString`). -/
def goodStr (s : Str) : Prop :=
  noSeq '\\' 'n' s = true ∧ noSeq '\\' 't' s = true ∧
  noSeq '\\' 'r' s = true ∧
  ∀ c ∈ s, c ≠ '\u2028' ∧ c ≠ '\u2029'

/-- Header keys and values survive the (escape-free) header round trip
when they are their own trim and contain no newline, carriage return,
backslash or U+2028/U+2029. -/
def plainStr (s : Str) : Prop :=
  jsTrim s = s ∧
  ∀ c ∈ s, c ≠ '\n' ∧ c ≠ '\r' ∧ c ≠ '\\' ∧ c ≠ '\u2028' ∧ c ≠ '\u2029'

def headerKVOk (kv : Str × Str) : Prop :=
  kv.1 ≠ [] ∧ ':' ∉ kv.1 ∧ plainStr kv.1 ∧ plainStr kv.2

def commentsOk : Option Str → Prop
  | none => True
  | some c => c ≠ [] ∧ jsTrim c = c ∧ ∀ x ∈ c, x ≠ '\n' ∧ x ≠ '\r'

def contextOk : Option Str → Prop
  | none => True
  | some c => c ≠ [] ∧ goodStr c

/-- The shape `parsePOFile` gives every entry, plus the goodness
conditions on its string fields needed for the value round trip. -/
def entryOk (e : TranslationEntry) : Prop :=
  e.msgid ≠ [] ∧ goodStr e.msgid ∧ goodStr e.msgstr ∧
  contextOk e.context ∧ commentsOk e.comments ∧
  e.id = e.context.getD [] ++ '_' :: e.msgid ∧
  e.status = (if e.msgstr = [] then .pending else .translated)

/-- Catalog models for which `parsePOFile ∘ generatePOFile` is the
identity. -/
def wellFormedPO (M : ParsedPO) : Prop :=
  (M.headers.map Prod.fst).Nodup ∧
  (∀ kv ∈ M.headers, headerKVOk kv) ∧
  ∀ e ∈ M.entries, entryOk e

/-- The non-blank blocks `parsePOFile` iterates over. -/
def nonBlankBlocks (content : Str) : List Str :=
  (splitNN (normalizeEols content)).filter fun b => !(jsTrim b).isEmpty

/-- The `msgstr` payloads of the header-classified blocks (those whose
extracted `msgid` is empty), in parse order. -/
def headerRecords (content : Str) : List Str :=
  ((nonBlankBlocks content).filter fun b => (parseBlock b).msgid.isEmpty).map
    fun b => (parseBlock b).msgstr

/-- The headers mapping built from the header-classified blocks alone. -/
def headersOnly (content : Str) : List (Str × Str) :=
  (headerRecords content).foldl (fun hs r => parseHeaders r hs) []

/-- The key/value assignment a single header line produces, if any. -/
def linePair (line : Str) : Option (Str × Str) :=
  let i := colonIdx line
  if 0 < i ∧ i < line.length then
    some (jsTrim (line.take i), jsTrim (line.drop (i + 1)))
  else none

/-- All header key/value assignments of the input, across all
header-classified blocks, in the order they are executed. -/
def headerPairs (content : Str) : List (Str × Str) :=
  (headerRecords content).flatMap fun r => (splitNL r).filterMap linePair

/-- JS property read `headers[k]` on the insertion-ordered mapping. -/
def lookupKey (hs : List (Str × Str)) (k : Str) : Option Str :=
  (hs.find? fun kv => kv.1 == k).map Prod.snd

/-- The value of the last assignment to `k` in an assignment list. -/
def lastAssign (ps : List (Str × Str)) (k : Str) : Option Str :=
  ((ps.filter fun kv => kv.1 == k).getLast?).map Prod.snd

/-- Spec-side description of comment extraction (claim C7): the trimmed
payloads after the two-character prefix of `#.` and `#:` lines, in
order. -/
def contribPieces (block : Str) : List Str :=
  (splitNL block).filterMap fun line =>
    let t := jsTrim line
    if startsWith ['#', '.'] t || startsWith ['#', ':'] t then
      some (jsTrim (t.drop 2))
    else none

/-- Spec-side description of the resulting `comments` field: the pieces
joined by single spaces (trimmed), absent when nothing contributed. -/
def commentsSpec (block : Str) : Option Str :=
  let joined := jsTrim (List.intercalate [' '] (contribPieces block))
  if joined = [] then none else some joined

/-- Input whose parse produces a header with an empty key (claim C1). -/
def cexC1Text : Str := ("msgid \"\"\nmsgstr \" : v\"").toList

/-- Input producing two entries with equal msgid, different context
values (`\"\"` versus absent) and identical ids (claim C8). -/
def cexC8Text : Str :=
  ("msgctxt \"\"\nmsgid \"a\"\nmsgstr \"\"\n\nmsgid \"a\"\nmsgstr \"\"").toList

/-- A small well-behaved catalog text used by witnesses. -/
def sampleText : Str :=
  ("msgid \"\"\nmsgstr \"\"\n\"Language: es\\n\"\n\n#. note\nmsgctxt \"c\"\nmsgid \"a\"\nmsgstr \"b\"").toList

/-- Intermediate per-character views of the partially unescaped string
after each of the first three replacement passes of `unescapePO`. -/
def escA (c : Char) : Str :=
  if c = '\\' then ['\\', '\\']
  else if c = '\"' then ['\\', '\"']
  else if c = '\n' then ['\n']
  else if c = '\t' then ['\\', 't']
  else if c = '\r' then ['\\', 'r']
  else [c]

def escB (c : Char) : Str :=
  if c = '\\' then ['\\', '\\']
  else if c = '\"' then ['\\', '\"']
  else if c = '\n' then ['\n']
  else if c = '\t' then ['\t']
  else if c = '\r' then ['\\', 'r']
  else [c]

def escC (c : Char) : Str :=
  if c = '\\' then ['\\', '\\']
  else if c = '\"' then ['\\', '\"']
  else [c]

def escD (c : Char) : Str :=
  if c = '\\' then ['\\', '\\'] else [c]

/-- The lines of the generated header block (comment, `msgid \"\"`,
`msgstr \"\"`, one quoted line per header). -/
def headerBlockLines (hs : List (Str × Str)) : List Str :=
  [hdrComment, msgidKW ++ ['\"', '\"'], msgstrKW ++ ['\"', '\"']] ++
    hs.map headerLine

def headerBlockText (hs : List (Str × Str)) : Str :=
  joinNL (headerBlockLines hs)

/-- The lines `generatePOFile` emits for one entry, without the trailing
blank separator line. -/
def entryCoreLines (e : TranslationEntry) : List Str :=
  (match e.comments with
   | some c => if c = [] then [] else [['#', '.', ' '] ++ c]
   | none => []) ++
  (match e.context with
   | some c => if c = [] then [] else [msgctxtKW ++ escapeString c]
   | none => []) ++
  [msgidKW ++ escapeString e.msgid, msgstrKW ++ escapeString e.msgstr]

def entryBlockText (e : TranslationEntry) : Str :=
  joinNL (entryCoreLines e)

instance (s : Str) : Decidable (goodStr s) := by
  unfold goodStr
  infer_instance

instance (s : Str) : Decidable (plainStr s) := by
  unfold plainStr
  infer_instance

instance (kv : Str × Str) : Decidable (headerKVOk kv) := by
  unfold headerKVOk
  infer_instance

instance (c : Option Str) : Decidable (commentsOk c) := by
  unfold commentsOk
  cases c <;> infer_instance

instance (c : Option Str) : Decidable (contextOk c) := by
  unfold contextOk
  cases c <;> infer_instance

instance (e : TranslationEntry) : Decidable (entryOk e) := by
  unfold entryOk
  infer_instance

instance (M : ParsedPO) : Decidable (wellFormedPO M) := by
  unfold wellFormedPO
  infer_instance

/-! ## Basic facts about the modelled string utilities -/

theorem startsWith_same (p s : Str) : startsWith p (p ++ s) = true := by
  induction p with
  | nil => rfl
  | cons a ps ih => simpa [startsWith] using ih

theorem dropWhile_eq_self_of_head (p : Char → Bool) (l : Str)
    (h : ∀ c, l.head? = some c → p c = false) : l.dropWhile p = l := by
  cases l with
  | nil => rfl
  | cons a t => simp [List.dropWhile_cons, h a rfl]

theorem jsTrim_eq_self (s : Str)
    (h1 : ∀ c, s.head? = some c → isWS c = false)
    (h2 : ∀ c, s.getLast? = some c → isWS c = false) : jsTrim s = s := by
  have e1 : s.dropWhile isWS = s := dropWhile_eq_self_of_head _ _ h1
  have e2 : s.reverse.dropWhile isWS = s.reverse :=
    dropWhile_eq_self_of_head _ _
      (fun c hc => h2 c (by rwa [List.head?_reverse] at hc))
  unfold jsTrim
  rw [e1, e2, List.reverse_reverse]

theorem jsTrim_cons_ws (a : Char) (s : Str) (h : isWS a = true) :
    jsTrim (a :: s) = jsTrim s := by
  unfold jsTrim
  rw [List.dropWhile_cons, if_pos h]

theorem jsTrim_concat_ws (s : Str) (a : Char) (h : isWS a = true) :
    jsTrim (s ++ [a]) = jsTrim s := by
  unfold jsTrim
  rw [List.dropWhile_append]
  by_cases hd : (s.dropWhile isWS).isEmpty
  · rw [if_pos hd]
    rw [List.isEmpty_iff] at hd
    rw [hd]
    simp [List.dropWhile_cons, h]
  · rw [if_neg hd]
    rw [List.reverse_append]
    simp only [List.reverse_cons, List.reverse_nil, List.nil_append,
      List.singleton_append]
    rw [List.dropWhile_cons, if_pos h]

theorem jsTrim_len_le (s : Str) : (jsTrim s).length ≤ s.length := by
  unfold jsTrim
  simp only [List.length_reverse]
  calc ((s.dropWhile isWS).reverse.dropWhile isWS).length
      ≤ (s.dropWhile isWS).reverse.length := (List.dropWhile_sublist _).length_le
    _ = (s.dropWhile isWS).length := List.length_reverse _
    _ ≤ s.length := (List.dropWhile_sublist _).length_le

theorem head_not_ws_of_jsTrim (s : Str) (hs : jsTrim s = s) :
    ∀ c, s.head? = some c → isWS c = false := by
  intro c hc
  cases s with
  | nil => simp at hc
  | cons a t =>
    have ha : a = c := by simpa using hc
    subst ha
    cases hw : isWS a with
    | false => rfl
    | true =>
      have h1 := jsTrim_cons_ws a t hw
      rw [hs] at h1
      have := congrArg List.length h1
      have h2 := jsTrim_len_le t
      simp at this
      omega

theorem last_not_ws_of_jsTrim (s : Str) (hs : jsTrim s = s) :
    ∀ c, s.getLast? = some c → isWS c = false := by
  intro c hc
  have hrev : s.reverse.head? = some c := by rw [List.head?_reverse]; exact hc
  cases hr : s.reverse with
  | nil => rw [hr] at hrev; simp at hrev
  | cons a t =>
    have ha : a = c := by rw [hr] at hrev; simpa using hrev
    subst ha
    have hs2 : s = t.reverse ++ [a] := by
      rw [← List.reverse_reverse s, hr]
      simp
    cases hw : isWS a with
    | false => rfl
    | true =>
      have h1 := jsTrim_concat_ws t.reverse a hw
      rw [← hs2, hs] at h1
      have hlen := congrArg List.length h1
      have h2 : (jsTrim t.reverse).length ≤ t.length := by
        simpa using jsTrim_len_le t.reverse
      rw [hs2] at hlen
      simp only [List.length_append, List.length_reverse, List.length_cons,
        List.length_nil] at hlen
      omega

theorem splitNL_ne_nil (s : Str) : splitNL s ≠ [] := by
  cases s with
  | nil => simp [splitNL]
  | cons c rest =>
    by_cases h : c = '\n'
    · simp [splitNL, h]
    · cases hr : splitNL rest with
      | nil => simp [splitNL, h, hr]
      | cons p ps => simp [splitNL, h, hr]

theorem splitNL_no_nl (x : Str) (hx : '\n' ∉ x) : splitNL x = [x] := by
  induction x with
  | nil => rfl
  | cons a t ih =>
    have ha : ¬ a = '\n' := fun h => hx (h ▸ List.mem_cons_self a t)
    have ht : '\n' ∉ t := fun h => hx (List.mem_cons_of_mem _ h)
    simp [splitNL, ha, ih ht]

theorem splitNL_append_nl (x rest : Str) (hx : '\n' ∉ x) :
    splitNL (x ++ '\n' :: rest) = x :: splitNL rest := by
  induction x with
  | nil => simp [splitNL]
  | cons a t ih =>
    have ha : ¬ a = '\n' := fun h => hx (h ▸ List.mem_cons_self a t)
    have ht : '\n' ∉ t := fun h => hx (List.mem_cons_of_mem _ h)
    have h2 := ih ht
    simp only [List.cons_append, splitNL, if_neg ha, List.append_eq]
    rw [h2]

theorem joinNL_cons2 (l l2 : Str) (ls : List Str) :
    joinNL (l :: l2 :: ls) = l ++ '\n' :: joinNL (l2 :: ls) := rfl

theorem splitNL_joinNL (ls : List Str) (h : ∀ l ∈ ls, '\n' ∉ l)
    (hne : ls ≠ []) : splitNL (joinNL ls) = ls := by
  induction ls with
  | nil => cases hne rfl
  | cons l ls ih =>
    cases ls with
    | nil => exact splitNL_no_nl l (h l (by simp))
    | cons l2 ls2 =>
      rw [joinNL_cons2, splitNL_append_nl _ _ (h l (by simp)),
        ih (fun x hx => h x (List.mem_cons_of_mem _ hx)) (by simp)]

theorem splitNL_concat_nl (x : Str) :
    splitNL (x ++ ['\n']) = splitNL x ++ [[]] := by
  induction x with
  | nil => simp [splitNL]
  | cons a t ih =>
    by_cases ha : a = '\n'
    · subst ha
      simp [splitNL, ih]
    · obtain ⟨p, ps, hp⟩ : ∃ p ps, splitNL t = p :: ps := by
        cases hsp : splitNL t with
        | nil => exact absurd hsp (splitNL_ne_nil t)
        | cons p ps => exact ⟨p, ps, rfl⟩
      have hp2 : splitNL (t ++ ['\n']) = p :: (ps ++ [[]]) := by
        rw [ih, hp]; rfl
      simp [splitNL, ha, hp, hp2]

theorem joinNL_append (xs ys : List Str) (hxs : xs ≠ []) (hys : ys ≠ []) :
    joinNL (xs ++ ys) = joinNL xs ++ '\n' :: joinNL ys := by
  induction xs with
  | nil => cases hxs rfl
  | cons x xs ih =>
    cases xs with
    | nil =>
      cases ys with
      | nil => cases hys rfl
      | cons y ys2 => rfl
    | cons x2 xs2 =>
      simp only [List.cons_append, joinNL_cons2, List.append_assoc]
      rw [show x2 :: (xs2 ++ ys) = (x2 :: xs2) ++ ys from rfl, ih (by simp)]

/-! ## Facts about the block splitter -/

theorem noSeq_tail (a b x : Char) (s : Str) (h : noSeq a b (x :: s) = true) :
    noSeq a b s = true := by
  cases s with
  | nil => rfl
  | cons y r =>
    unfold noSeq at h
    rw [Bool.and_eq_true] at h
    exact h.2

theorem noSeq_head (a b x : Char) (s : Str) (h : noSeq a b (x :: s) = true)
    (hx : x = a) : s.head? ≠ some b := by
  cases s with
  | nil => simp
  | cons y r =>
    intro hy
    have hy2 : y = b := by simpa using hy
    unfold noSeq at h
    rw [Bool.and_eq_true] at h
    have h1 := h.1
    subst hx
    subst hy2
    simp at h1

theorem go_cons_nl (cur : Str) (pend : Nat) (rest : Str) :
    splitNNGo cur pend ('\n' :: rest) = splitNNGo cur (pend + 1) rest := by
  simp [splitNNGo]

theorem go_cons_other0 (cur : Str) (c : Char) (rest : Str) (hc : ¬ c = '\n') :
    splitNNGo cur 0 (c :: rest) = splitNNGo (c :: cur) 0 rest := by
  simp [splitNNGo, hc]

theorem go_cons_other1 (cur : Str) (c : Char) (rest : Str) (hc : ¬ c = '\n') :
    splitNNGo cur 1 (c :: rest) = splitNNGo (c :: '\n' :: cur) 0 rest := by
  simp [splitNNGo, hc]

theorem go_cons_other2 (cur : Str) (c : Char) (rest : Str) (hc : ¬ c = '\n') :
    splitNNGo cur 2 (c :: rest) = cur.reverse :: splitNNGo [c] 0 rest := by
  simp [splitNNGo, hc]

theorem go_nil0 (cur : Str) : splitNNGo cur 0 [] = [cur.reverse] := by
  simp [splitNNGo]

theorem go_nil1 (cur : Str) : splitNNGo cur 1 [] = [('\n' :: cur).reverse] := by
  simp [splitNNGo]

theorem go_nil2 (cur : Str) : splitNNGo cur 2 [] = [cur.reverse, []] := by
  simp [splitNNGo]

theorem splitNNGo_scan :
    ∀ (X cur T : Str), noSeq '\n' '\n' X = true → X.getLast? ≠ some '\n' →
      splitNNGo cur 0 (X ++ T) = splitNNGo (X.reverse ++ cur) 0 T
  | [], cur, T, _, _ => by simp
  | [x], cur, T, _, h2 => by
    have hx : ¬ x = '\n' := fun h => h2 (by simp [h])
    rw [show [x] ++ T = x :: T from rfl, go_cons_other0 _ _ _ hx]
    simp
  | x :: y :: X, cur, T, h1, h2 => by
    have hlast : (y :: X).getLast? ≠ some '\n' := by
      rwa [List.getLast?_cons_cons] at h2
    by_cases hx : x = '\n'
    · have hy : ¬ y = '\n' := by
        intro hy
        exact absurd (by simp [hy] : (y :: X).head? = some '\n')
          (noSeq_head '\n' '\n' x (y :: X) h1 hx)
      subst hx
      have hX : noSeq '\n' '\n' (y :: X) = true := noSeq_tail _ _ _ _ h1
      have hXl : X.getLast? ≠ some '\n' := by
        cases X with
        | nil => simp
        | cons z Z => rwa [List.getLast?_cons_cons] at hlast
      rw [show ('\n' :: y :: X) ++ T = '\n' :: (y :: (X ++ T)) from rfl,
        go_cons_nl, go_cons_other1 _ _ _ hy,
        splitNNGo_scan X (y :: '\n' :: cur) T (noSeq_tail _ _ _ _ hX) hXl]
      simp
    · rw [show (x :: y :: X) ++ T = x :: ((y :: X) ++ T) from rfl,
        go_cons_other0 _ _ _ hx,
        splitNNGo_scan (y :: X) (x :: cur) T (noSeq_tail _ _ _ _ h1) hlast]
      simp

theorem splitNNGo_sep (Z : Str) (cur : Str) (h : Z.head? ≠ some '\n') :
    splitNNGo cur 2 Z = cur.reverse :: splitNNGo [] 0 Z := by
  cases Z with
  | nil => simp [splitNNGo]
  | cons c rest =>
    have hc : ¬ c = '\n' := fun hh => h (by simp [hh])
    rw [go_cons_other2 _ _ _ hc, go_cons_other0 _ _ _ hc]

theorem splitNN_sep (X Z : Str) (h1 : noSeq '\n' '\n' X = true)
    (h2 : X.getLast? ≠ some '\n') (h3 : Z.head? ≠ some '\n') :
    splitNN (X ++ '\n' :: '\n' :: Z) = X :: splitNN Z := by
  unfold splitNN
  rw [splitNNGo_scan X [] ('\n' :: '\n' :: Z) h1 h2, go_cons_nl, go_cons_nl]
  rw [splitNNGo_sep Z _ h3]
  simp

theorem splitNN_last (X : Str) (h1 : noSeq '\n' '\n' X = true)
    (h2 : X.getLast? ≠ some '\n') :
    splitNN (X ++ ['\n']) = [X ++ ['\n']] := by
  unfold splitNN
  rw [splitNNGo_scan X [] ['\n'] h1 h2, go_cons_nl, go_nil1]
  simp

theorem splitNN_whole (X : Str) (h1 : noSeq '\n' '\n' X = true)
    (h2 : X.getLast? ≠ some '\n') : splitNN X = [X] := by
  unfold splitNN
  have hs := splitNNGo_scan X [] [] h1 h2
  rw [List.append_nil] at hs
  rw [hs, go_nil0]
  simp

/-! ## The escape / unescape chain -/

theorem replaceC_append (c : Char) (r x y : Str) :
    replaceC c r (x ++ y) = replaceC c r x ++ replaceC c r y := by
  induction x with
  | nil => rfl
  | cons a t ih => simp [replaceC, ih, List.append_assoc]

theorem escCore_append (x y : Str) :
    escCore (x ++ y) = escCore x ++ escCore y := by
  simp [escCore, replaceC_append]

theorem escCore_single (c : Char) : escCore [c] = escChar c := by
  by_cases h1 : c = '\\'
  · subst h1; decide
  · by_cases h2 : c = '\"'
    · subst h2; decide
    · by_cases h3 : c = '\n'
      · subst h3; decide
      · by_cases h4 : c = '\t'
        · subst h4; decide
        · by_cases h5 : c = '\r'
          · subst h5; decide
          · simp [escCore, escChar, replaceC, h1, h2, h3, h4, h5]

theorem escCore_eq (s : Str) : escCore s = s.flatMap escChar := by
  induction s with
  | nil => rfl
  | cons c t ih =>
    rw [show (c :: t) = [c] ++ t from rfl, escCore_append, escCore_single, ih]
    simp

theorem replace2_cons_ne (p q : Char) (r : Str) (a : Char) (t : Str)
    (h : a = p → t.head? ≠ some q) :
    replace2 p q r (a :: t) = a :: replace2 p q r t := by
  cases t with
  | nil => simp [replace2]
  | cons b t2 =>
    have hne : ¬(a = p ∧ b = q) := fun ⟨ha, hb⟩ => h ha (by simp [hb])
    simp [replace2, hne]

theorem replace2_hit (p q : Char) (r t : Str) :
    replace2 p q r (p :: q :: t) = r ++ replace2 p q r t := by
  simp [replace2]

theorem flatMap_head_chunk (f : Char → Str) (hfne : ∀ c, f c ≠ [])
    (c : Char) (s : Str) :
    ((c :: s).flatMap f).head? = (f c).head? := by
  rw [List.flatMap_cons]
  cases hf : f c with
  | nil => exact absurd hf (hfne c)
  | cons a t => simp

theorem escChar_ne_nil (c : Char) : escChar c ≠ [] := by
  unfold escChar
  split_ifs <;> simp

theorem escA_ne_nil (c : Char) : escA c ≠ [] := by
  unfold escA
  split_ifs <;> simp

theorem escB_ne_nil (c : Char) : escB c ≠ [] := by
  unfold escB
  split_ifs <;> simp

theorem escC_ne_nil (c : Char) : escC c ≠ [] := by
  unfold escC
  split_ifs <;> simp

theorem escChar_head (c : Char) :
    (escChar c).head? = some '\\' ∨ (escChar c).head? = some c := by
  unfold escChar
  split_ifs <;> simp

theorem escA_head (c : Char) :
    (escA c).head? = some '\\' ∨ (escA c).head? = some c := by
  unfold escA
  split_ifs with h1 h2 h3 <;> simp_all

theorem escB_head (c : Char) :
    (escB c).head? = some '\\' ∨ (escB c).head? = some c := by
  unfold escB
  split_ifs with h1 h2 h3 h4 <;> simp_all

theorem flatMap_head_ne (f : Char → Str) (x : Char) (hx : x ≠ '\\')
    (hf : ∀ c, (f c).head? = some '\\' ∨ (f c).head? = some c)
    (hfne : ∀ c, f c ≠ []) (s : Str) (h : s.head? ≠ some x) :
    (s.flatMap f).head? ≠ some x := by
  cases s with
  | nil => simp
  | cons d s2 =>
    rw [flatMap_head_chunk f hfne d s2]
    rcases hf d with h1 | h1 <;> rw [h1] <;> intro hh <;>
      simp only [Option.some.injEq] at hh
    · exact hx hh.symm
    · exact h (by simp [hh])

theorem escC_head_ne_quote (c : Char) : (escC c).head? ≠ some '\"' := by
  unfold escC
  split_ifs with h1 h2 <;> simp_all

theorem flatMap_escC_head_ne_quote (s : Str) :
    (s.flatMap escC).head? ≠ some '\"' := by
  cases s with
  | nil => simp
  | cons d s2 =>
    rw [flatMap_head_chunk escC escC_ne_nil d s2]
    exact escC_head_ne_quote d

theorem unstep_n :
    ∀ (s : Str), noSeq '\\' 'n' s = true →
      replace2 '\\' 'n' ['\n'] (s.flatMap escChar) = s.flatMap escA
  | [], _ => by simp [replace2]
  | c :: s, h => by
    have hs : noSeq '\\' 'n' s = true := noSeq_tail _ _ _ _ h
    have ih := unstep_n s hs
    rw [List.flatMap_cons, List.flatMap_cons]
    by_cases h1 : c = '\\'
    · subst h1
      have hhead : (s.flatMap escChar).head? ≠ some 'n' :=
        flatMap_head_ne escChar 'n' (by decide) escChar_head escChar_ne_nil s
          (noSeq_head '\\' 'n' '\\' s h rfl)
      rw [show escChar '\\' = ['\\', '\\'] from by decide,
        show escA '\\' = ['\\', '\\'] from by decide,
        show (['\\', '\\'] : Str) ++ s.flatMap escChar
          = '\\' :: '\\' :: s.flatMap escChar from rfl,
        replace2_cons_ne _ _ _ _ _ (fun _ => by simp),
        replace2_cons_ne _ _ _ _ _ (fun _ => hhead), ih]
      rfl
    · by_cases h2 : c = '\"'
      · subst h2
        rw [show escChar '\"' = ['\\', '\"'] from by decide,
          show escA '\"' = ['\\', '\"'] from by decide,
          show (['\\', '\"'] : Str) ++ s.flatMap escChar
            = '\\' :: '\"' :: s.flatMap escChar from rfl,
          replace2_cons_ne _ _ _ _ _ (fun _ => by simp),
          replace2_cons_ne _ _ _ _ _ (fun hq => absurd hq (by decide)), ih]
        rfl
      · by_cases h3 : c = '\n'
        · subst h3
          rw [show escChar '\n' = ['\\', 'n'] from by decide,
            show escA '\n' = ['\n'] from by decide,
            show (['\\', 'n'] : Str) ++ s.flatMap escChar
              = '\\' :: 'n' :: s.flatMap escChar from rfl,
            replace2_hit, ih]
        · by_cases h4 : c = '\t'
          · subst h4
            rw [show escChar '\t' = ['\\', 't'] from by decide,
              show escA '\t' = ['\\', 't'] from by decide,
              show (['\\', 't'] : Str) ++ s.flatMap escChar
                = '\\' :: 't' :: s.flatMap escChar from rfl,
              replace2_cons_ne _ _ _ _ _ (fun _ => by simp),
              replace2_cons_ne _ _ _ _ _ (fun hq => absurd hq (by decide)), ih]
            rfl
          · by_cases h5 : c = '\r'
            · subst h5
              rw [show escChar '\r' = ['\\', 'r'] from by decide,
                show escA '\r' = ['\\', 'r'] from by decide,
                show (['\\', 'r'] : Str) ++ s.flatMap escChar
                  = '\\' :: 'r' :: s.flatMap escChar from rfl,
                replace2_cons_ne _ _ _ _ _ (fun _ => by simp),
                replace2_cons_ne _ _ _ _ _ (fun hq => absurd hq (by decide)),
                ih]
              rfl
            · rw [show escChar c = [c] from by
                  simp [escChar, h1, h2, h3, h4, h5],
                show escA c = [c] from by simp [escA, h1, h2, h3, h4, h5],
                show ([c] : Str) ++ s.flatMap escChar
                  = c :: s.flatMap escChar from rfl,
                replace2_cons_ne _ _ _ _ _ (fun hc => absurd hc h1), ih]
              rfl

theorem unstep_t :
    ∀ (s : Str), noSeq '\\' 't' s = true →
      replace2 '\\' 't' ['\t'] (s.flatMap escA) = s.flatMap escB
  | [], _ => by simp [replace2]
  | c :: s, h => by
    have hs : noSeq '\\' 't' s = true := noSeq_tail _ _ _ _ h
    have ih := unstep_t s hs
    rw [List.flatMap_cons, List.flatMap_cons]
    by_cases h1 : c = '\\'
    · subst h1
      have hhead : (s.flatMap escA).head? ≠ some 't' :=
        flatMap_head_ne escA 't' (by decide) escA_head escA_ne_nil s
          (noSeq_head '\\' 't' '\\' s h rfl)
      rw [show escA '\\' = ['\\', '\\'] from by decide,
        show escB '\\' = ['\\', '\\'] from by decide,
        show (['\\', '\\'] : Str) ++ s.flatMap escA
          = '\\' :: '\\' :: s.flatMap escA from rfl,
        replace2_cons_ne _ _ _ _ _ (fun _ => by simp),
        replace2_cons_ne _ _ _ _ _ (fun _ => hhead), ih]
      rfl
    · by_cases h2 : c = '\"'
      · subst h2
        rw [show escA '\"' = ['\\', '\"'] from by decide,
          show escB '\"' = ['\\', '\"'] from by decide,
          show (['\\', '\"'] : Str) ++ s.flatMap escA
            = '\\' :: '\"' :: s.flatMap escA from rfl,
          replace2_cons_ne _ _ _ _ _ (fun _ => by simp),
          replace2_cons_ne _ _ _ _ _ (fun hq => absurd hq (by decide)), ih]
        rfl
      · by_cases h3 : c = '\n'
        · subst h3
          rw [show escA '\n' = ['\n'] from by decide,
            show escB '\n' = ['\n'] from by decide,
            show (['\n'] : Str) ++ s.flatMap escA
              = '\n' :: s.flatMap escA from rfl,
            replace2_cons_ne _ _ _ _ _ (fun hq => absurd hq (by decide)), ih]
          rfl
        · by_cases h4 : c = '\t'
          · subst h4
            rw [show escA '\t' = ['\\', 't'] from by decide,
              show escB '\t' = ['\t'] from by decide,
              show (['\\', 't'] : Str) ++ s.flatMap escA
                = '\\' :: 't' :: s.flatMap escA from rfl,
              replace2_hit, ih]
          · by_cases h5 : c = '\r'
            · subst h5
              rw [show escA '\r' = ['\\', 'r'] from by decide,
                show escB '\r' = ['\\', 'r'] from by decide,
                show (['\\', 'r'] : Str) ++ s.flatMap escA
                  = '\\' :: 'r' :: s.flatMap escA from rfl,
                replace2_cons_ne _ _ _ _ _ (fun _ => by simp),
                replace2_cons_ne _ _ _ _ _ (fun hq => absurd hq (by decide)),
                ih]
              rfl
            · rw [show escA c = [c] from by simp [escA, h1, h2, h3, h4, h5],
                show escB c = [c] from by simp [escB, h1, h2, h3, h4, h5],
                show ([c] : Str) ++ s.flatMap escA
                  = c :: s.flatMap escA from rfl,
                replace2_cons_ne _ _ _ _ _ (fun hc => absurd hc h1), ih]
              rfl

theorem unstep_r :
    ∀ (s : Str), noSeq '\\' 'r' s = true →
      replace2 '\\' 'r' ['\r'] (s.flatMap escB) = s.flatMap escC
  | [], _ => by simp [replace2]
  | c :: s, h => by
    have hs : noSeq '\\' 'r' s = true := noSeq_tail _ _ _ _ h
    have ih := unstep_r s hs
    rw [List.flatMap_cons, List.flatMap_cons]
    by_cases h1 : c = '\\'
    · subst h1
      have hhead : (s.flatMap escB).head? ≠ some 'r' :=
        flatMap_head_ne escB 'r' (by decide) escB_head escB_ne_nil s
          (noSeq_head '\\' 'r' '\\' s h rfl)
      rw [show escB '\\' = ['\\', '\\'] from by decide,
        show escC '\\' = ['\\', '\\'] from by decide,
        show (['\\', '\\'] : Str) ++ s.flatMap escB
          = '\\' :: '\\' :: s.flatMap escB from rfl,
        replace2_cons_ne _ _ _ _ _ (fun _ => by simp),
        replace2_cons_ne _ _ _ _ _ (fun _ => hhead), ih]
      rfl
    · by_cases h2 : c = '\"'
      · subst h2
        rw [show escB '\"' = ['\\', '\"'] from by decide,
          show escC '\"' = ['\\', '\"'] from by decide,
          show (['\\', '\"'] : Str) ++ s.flatMap escB
            = '\\' :: '\"' :: s.flatMap escB from rfl,
          replace2_cons_ne _ _ _ _ _ (fun _ => by simp),
          replace2_cons_ne _ _ _ _ _ (fun hq => absurd hq (by decide)), ih]
        rfl
      · by_cases h3 : c = '\n'
        · subst h3
          rw [show escB '\n' = ['\n'] from by decide,
            show escC '\n' = ['\n'] from by decide,
            show (['\n'] : Str) ++ s.flatMap escB
              = '\n' :: s.flatMap escB from rfl,
            replace2_cons_ne _ _ _ _ _ (fun hq => absurd hq (by decide)), ih]
          rfl
        · by_cases h4 : c = '\t'
          · subst h4
            rw [show escB '\t' = ['\t'] from by decide,
              show escC '\t' = ['\t'] from by decide,
              show (['\t'] : Str) ++ s.flatMap escB
                = '\t' :: s.flatMap escB from rfl,
              replace2_cons_ne _ _ _ _ _ (fun hq => absurd hq (by decide)),
              ih]
            rfl
          · by_cases h5 : c = '\r'
            · subst h5
              rw [show escB '\r' = ['\\', 'r'] from by decide,
                show escC '\r' = ['\r'] from by decide,
                show (['\\', 'r'] : Str) ++ s.flatMap escB
                  = '\\' :: 'r' :: s.flatMap escB from rfl,
                replace2_hit, ih]
            · rw [show escB c = [c] from by simp [escB, h1, h2, h3, h4, h5],
                show escC c = [c] from by simp [escC, h1, h2],
                show ([c] : Str) ++ s.flatMap escB
                  = c :: s.flatMap escB from rfl,
                replace2_cons_ne _ _ _ _ _ (fun hc => absurd hc h1), ih]
              rfl

theorem unstep_q :
    ∀ (s : Str),
      replace2 '\\' '\"' ['\"'] (s.flatMap escC) = s.flatMap escD
  | [] => by simp [replace2]
  | c :: s => by
    have ih := unstep_q s
    rw [List.flatMap_cons, List.flatMap_cons]
    by_cases h1 : c = '\\'
    · subst h1
      rw [show escC '\\' = ['\\', '\\'] from by decide,
        show escD '\\' = ['\\', '\\'] from by decide,
        show (['\\', '\\'] : Str) ++ s.flatMap escC
          = '\\' :: '\\' :: s.flatMap escC from rfl,
        replace2_cons_ne _ _ _ _ _ (fun _ => by simp),
        replace2_cons_ne _ _ _ _ _
          (fun _ => flatMap_escC_head_ne_quote s), ih]
      rfl
    · by_cases h2 : c = '\"'
      · subst h2
        rw [show escC '\"' = ['\\', '\"'] from by decide,
          show escD '\"' = ['\"'] from by decide,
          show (['\\', '\"'] : Str) ++ s.flatMap escC
            = '\\' :: '\"' :: s.flatMap escC from rfl,
          replace2_hit, ih]
      · rw [show escC c = [c] from by simp [escC, h1, h2],
          show escD c = [c] from by simp [escD, h1],
          show ([c] : Str) ++ s.flatMap escC
            = c :: s.flatMap escC from rfl,
          replace2_cons_ne _ _ _ _ _ (fun hc => absurd hc h1), ih]
        rfl

theorem unstep_b :
    ∀ (s : Str), replace2 '\\' '\\' ['\\'] (s.flatMap escD) = s
  | [] => by simp [replace2]
  | c :: s => by
    have ih := unstep_b s
    rw [List.flatMap_cons]
    by_cases h1 : c = '\\'
    · subst h1
      rw [show escD '\\' = ['\\', '\\'] from by decide,
        show (['\\', '\\'] : Str) ++ s.flatMap escD
          = '\\' :: '\\' :: s.flatMap escD from rfl,
        replace2_hit, ih]
      rfl
    · rw [show escD c = [c] from by simp [escD, h1],
        show ([c] : Str) ++ s.flatMap escD
          = c :: s.flatMap escD from rfl,
        replace2_cons_ne _ _ _ _ _ (fun hc => absurd hc h1), ih]

theorem unescape_escCore (s : Str) (h1 : noSeq '\\' 'n' s = true)
    (h2 : noSeq '\\' 't' s = true) (h3 : noSeq '\\' 'r' s = true) :
    unescapePO (escCore s) = s := by
  rw [escCore_eq]
  unfold unescapePO
  rw [unstep_n s h1, unstep_t s h2, unstep_r s h3, unstep_q s, unstep_b s]

theorem escChar_no_lineterm (c : Char) (hc : c ≠ ' ' ∧ c ≠ ' ') :
    ∀ x ∈ escChar c, isLineTerm x = false := by
  intro x hx
  unfold escChar at hx
  split_ifs at hx with e1 e2 e3 e4 e5 <;>
    simp only [List.mem_cons, List.mem_singleton, List.not_mem_nil,
      or_false] at hx
  · rcases hx with rfl | rfl <;> decide
  · rcases hx with rfl | rfl <;> decide
  · rcases hx with rfl | rfl <;> decide
  · rcases hx with rfl | rfl <;> decide
  · rcases hx with rfl | rfl <;> decide
  · subst hx
    simp [isLineTerm, e3, e5, hc.1, hc.2]

theorem escCore_no_lineterm (s : Str)
    (h : ∀ c ∈ s, c ≠ ' ' ∧ c ≠ ' ') :
    (escCore s).all (fun c => !isLineTerm c) = true := by
  rw [escCore_eq, List.all_eq_true]
  intro x hx
  rw [List.mem_flatMap] at hx
  obtain ⟨c, hc, hxc⟩ := hx
  have := escChar_no_lineterm c (h c hc) x hxc
  simp [this]

/-- Core inversion: on good strings, `extractString` undoes
`escapeString` exactly. -/
theorem extract_escape_eq (s : Str) (hg : goodStr s) :
    extractString (escapeString s) = s := by
  obtain ⟨h1, h2, h3, h4⟩ := hg
  unfold escapeString extractString
  have hlen : 2 ≤ ('\"' :: escCore s ++ ['\"']).length := by
    simp
  have hh : ('\"' :: escCore s ++ ['\"']).head? = some '\"' := rfl
  have hl : ('\"' :: escCore s ++ ['\"']).getLast? = some '\"' := by
    rw [show '\"' :: escCore s ++ ['\"'] = ('\"' :: escCore s) ++ ['\"']
      from rfl]
    exact List.getLast?_concat _
  have hdl : (('\"' :: escCore s ++ ['\"']).drop 1).dropLast = escCore s := by
    simp
  rw [if_pos ⟨hlen, hh, hl, by rw [hdl]; exact escCore_no_lineterm s h4⟩, hdl]
  exact unescape_escCore s h1 h2 h3

/-! ## Claim C2: escaping round trip -/

/-- C2 counterexample: the claim fails on the two-character string
backslash-`n` (printable text plus the allowed control characters):
unescaping its escaped form yields backslash-newline instead. -/
theorem C2_counterexample :
    extractString (escapeString ['\\', 'n']) ≠ ['\\', 'n'] ∧
      extractString (escapeString ['\\', 'n']) = ['\\', '\n'] := by
  constructor
  · decide
  · decide

/-- C2 (amended): for every string with no backslash immediately followed
by one of the letters `n`, `t`, `r` and no U+2028/U+2029 characters,
`extractString (escapeString s) = s`. -/
theorem C2_escape_extract_inverse (s : Str) (hg : goodStr s) :
    extractString (escapeString s) = s :=
  extract_escape_eq s hg

theorem C2_witness :
    goodStr ("He said \"hi\"\nBye".toList) ∧
      extractString (escapeString ("He said \"hi\"\nBye".toList)) =
        "He said \"hi\"\nBye".toList :=
  ⟨by decide, C2_escape_extract_inverse ("He said \"hi\"\nBye".toList)
    (by decide)⟩

/-! ## Claim C9: bounded suggestion list -/

/-- C9: `parseTranslations` returns at most three strings, each
non-empty. -/
theorem C9_parseTranslations_bounded (content : Str) :
    (parseTranslations content).length ≤ 3 ∧
      ∀ t ∈ parseTranslations content, t ≠ [] := by
  constructor
  · unfold parseTranslations
    rw [List.length_take]
    exact min_le_left _ _
  · intro t ht
    unfold parseTranslations at ht
    have ht2 := List.mem_of_mem_take ht
    have hp := List.of_mem_filter ht2
    intro hnil
    rw [hnil] at hp
    simp at hp

theorem C9_witness :
    (parseTranslations ("1. Hola\n2) Mundo\n- Tres\n* Cuatro".toList)).length
        ≤ 3 ∧
      ("Hola".toList : Str) ≠ [] :=
  ⟨(C9_parseTranslations_bounded _).1,
   (C9_parseTranslations_bounded
      ("1. Hola\n2) Mundo\n- Tres\n* Cuatro".toList)).2 _ (by decide)⟩

/-! ## Claim C10: the catalog update -/

/-- C10: `updateTranslation` leaves headers and entry order unchanged;
position by position, an entry with a different id is unchanged and an
entry with the given id gets the new `msgstr`, the recomputed status,
and all other fields unchanged. -/
theorem C10_updateTranslation_frame (po : ParsedPO) (i s : Str) :
    (updateTranslation po i s).headers = po.headers ∧
      ∀ k : Nat, (updateTranslation po i s).entries[k]? =
        (po.entries[k]?).map fun e =>
          if e.id = i then
            { e with msgstr := s,
                     status := if s = [] then EStatus.pending
                               else EStatus.translated }
          else e := by
  refine ⟨rfl, fun k => ?_⟩
  unfold updateTranslation
  simp [List.getElem?_map]

/-! ## Fold invariants of the block loop -/

theorem entries_invariant (bs : List Str) (po : ParsedPO)
    (h : ∀ e ∈ po.entries, e.msgid ≠ [] ∧
      (e.status = EStatus.pending ↔ e.msgstr = []) ∧
      e.status ≠ EStatus.aiSuggested ∧
      e.id = e.context.getD [] ++ '_' :: e.msgid) :
    ∀ e ∈ (bs.foldl poStep po).entries, e.msgid ≠ [] ∧
      (e.status = EStatus.pending ↔ e.msgstr = []) ∧
      e.status ≠ EStatus.aiSuggested ∧
      e.id = e.context.getD [] ++ '_' :: e.msgid := by
  induction bs generalizing po with
  | nil => exact h
  | cons b bs ih =>
    rw [List.foldl_cons]
    apply ih
    intro e he
    unfold poStep at he
    by_cases hb : jsTrim b = []
    · rw [if_pos hb] at he
      exact h e he
    · rw [if_neg hb] at he
      simp only at he
      by_cases hm : (parseBlock b).msgid = []
      · rw [if_pos hm] at he
        exact h e he
      · rw [if_neg hm] at he
        simp only [List.mem_append, List.mem_singleton] at he
        rcases he with he | he
        · exact h e he
        · subst he
          refine ⟨hm, ?_, ?_, rfl⟩
          · by_cases hs : (parseBlock b).msgstr = [] <;> simp [hs]
          · by_cases hs : (parseBlock b).msgstr = [] <;> simp [hs]

/-! ## Claim C3: totality of the parser -/

/-- C3: `parsePOFile` is a total function: every input string yields a
`ParsedPO` value (the embedding is a total Lean function, so no input
can make it throw), and every produced entry carries a non-empty
`msgid` even on malformed input. -/
theorem C3_parse_total (content : Str) :
    ∃ po : ParsedPO, parsePOFile content = po ∧
      ∀ e ∈ po.entries, e.msgid ≠ [] := by
  refine ⟨parsePOFile content, rfl, fun e he => ?_⟩
  have := entries_invariant (splitNN (normalizeEols content)) ⟨[], []⟩
    (by intro e he; simp at he) e he
  exact this.1

/-! ## Claim C4: status derivation -/

/-- C4: every parsed entry has status `pending` exactly when its
`msgstr` is empty, and the parser never produces `ai-suggested`. -/
theorem C4_status_derivation (content : Str) :
    ∀ e ∈ (parsePOFile content).entries,
      (e.status = EStatus.pending ↔ e.msgstr = []) ∧
      e.status ≠ EStatus.aiSuggested := by
  intro e he
  have := entries_invariant (splitNN (normalizeEols content)) ⟨[], []⟩
    (by intro e he; simp at he) e he
  exact ⟨this.2.1, this.2.2.1⟩

theorem C4_witness :
    (EStatus.translated = EStatus.pending ↔ ("b".toList : Str) = []) ∧
      EStatus.translated ≠ EStatus.aiSuggested := by
  have h := C4_status_derivation sampleText
    { id := "c_a".toList, msgid := "a".toList, msgstr := "b".toList,
      context := some "c".toList, comments := some "note".toList,
      status := EStatus.translated } (by decide)
  exact h

/-! ## Claim C5: header isolation -/

theorem headers_foldl (bs : List Str) (po : ParsedPO) :
    (bs.foldl poStep po).headers =
      bs.foldl (fun hs b =>
        if jsTrim b = [] then hs
        else if (parseBlock b).msgid = [] then
          parseHeaders (parseBlock b).msgstr hs
        else hs) po.headers := by
  induction bs generalizing po with
  | nil => rfl
  | cons b bs ih =>
    rw [List.foldl_cons, List.foldl_cons, ih]
    congr 1
    unfold poStep
    by_cases hb : jsTrim b = []
    · rw [if_pos hb, if_pos hb]
    · rw [if_neg hb, if_neg hb]
      by_cases hm : (parseBlock b).msgid = []
      · simp only [if_pos hm]
      · simp only [if_neg hm]

theorem headers_fold_filter (bs : List Str) (hs0 : List (Str × Str)) :
    bs.foldl (fun hs b =>
        if jsTrim b = [] then hs
        else if (parseBlock b).msgid = [] then
          parseHeaders (parseBlock b).msgstr hs
        else hs) hs0 =
      ((bs.filter fun b => !(jsTrim b).isEmpty).filter
          fun b => (parseBlock b).msgid.isEmpty).foldl
        (fun hs b => parseHeaders (parseBlock b).msgstr hs) hs0 := by
  induction bs generalizing hs0 with
  | nil => rfl
  | cons b bs ih =>
    by_cases hb : jsTrim b = []
    · have h1 : (!(jsTrim b).isEmpty) = false := by simp [hb]
      simp only [List.foldl_cons, if_pos hb, List.filter_cons, h1,
        Bool.false_eq_true, if_false]
      exact ih hs0
    · have h1 : (!(jsTrim b).isEmpty) = true := by
        simp [List.isEmpty_iff, hb]
      by_cases hm : (parseBlock b).msgid = []
      · have h2 : (parseBlock b).msgid.isEmpty = true := by
          simp [List.isEmpty_iff, hm]
        simp only [List.foldl_cons, if_neg hb, if_pos hm, List.filter_cons,
          h1, if_true, h2]
        exact ih _
      · have h2 : (parseBlock b).msgid.isEmpty = false := by
          simp [List.isEmpty_iff, hm]
        simp only [List.foldl_cons, if_neg hb, if_neg hm, List.filter_cons,
          h1, if_true, h2, Bool.false_eq_true, if_false]
        exact ih hs0

/-- C5: blocks with empty extracted `msgid` never contribute entries
(every entry has non-empty `msgid`), and the headers mapping is built
from the header-classified blocks alone. -/
theorem C5_header_isolation (content : Str) :
    (∀ e ∈ (parsePOFile content).entries, e.msgid ≠ []) ∧
      (parsePOFile content).headers = headersOnly content := by
  constructor
  · intro e he
    exact (entries_invariant (splitNN (normalizeEols content)) ⟨[], []⟩
      (by intro e he; simp at he) e he).1
  · show ((splitNN (normalizeEols content)).foldl poStep ⟨[], []⟩).headers = _
    rw [headers_foldl, headers_fold_filter]
    unfold headersOnly headerRecords nonBlankBlocks
    rw [List.foldl_map]

theorem C5_witness :
    ("a".toList : Str) ≠ [] ∧
      (parsePOFile sampleText).headers = headersOnly sampleText :=
  ⟨(C5_header_isolation sampleText).1
    { id := "c_a".toList, msgid := "a".toList, msgstr := "b".toList,
      context := some "c".toList, comments := some "note".toList,
      status := EStatus.translated } (by decide),
   (C5_header_isolation sampleText).2⟩

/-! ## Claim C8: id derivation -/

/-- C8 counterexample: two parsed entries with the same `msgid` and
different `context` values (`msgctxt ""` gives the empty string, the
other entry has no context at all) still receive the same id `_a`,
because both context values render as the empty string in the id. -/
theorem C8_counterexample :
    ({ id := "_a".toList, msgid := "a".toList, msgstr := [],
       context := some [], comments := none,
       status := EStatus.pending } : TranslationEntry)
        ∈ (parsePOFile cexC8Text).entries ∧
    ({ id := "_a".toList, msgid := "a".toList, msgstr := [],
       context := none, comments := none,
       status := EStatus.pending } : TranslationEntry)
        ∈ (parsePOFile cexC8Text).entries ∧
    (some ([] : Str) : Option Str) ≠ none ∧
    ("_a".toList : Str) = "_a".toList := by
  refine ⟨by decide, by decide, by simp, rfl⟩

/-- C8 (amended): every parsed entry has
`id = (context or empty) ++ "_" ++ msgid`, and two entries with the same
`msgid` whose contexts differ after defaulting the absent context to the
empty string receive distinct ids.  (As stated the claim fails: an
entry with `context = ""` and one with no context get the same id.) -/
theorem C8_id_derivation (content : Str) :
    ∀ e₁ ∈ (parsePOFile content).entries,
      ∀ e₂ ∈ (parsePOFile content).entries,
        e₁.id = e₁.context.getD [] ++ '_' :: e₁.msgid ∧
        (e₁.msgid = e₂.msgid → e₁.context.getD [] ≠ e₂.context.getD [] →
          e₁.id ≠ e₂.id) := by
  intro e₁ h₁ e₂ h₂
  have i₁ := (entries_invariant (splitNN (normalizeEols content)) ⟨[], []⟩
    (by intro e he; simp at he) e₁ h₁).2.2.2
  have i₂ := (entries_invariant (splitNN (normalizeEols content)) ⟨[], []⟩
    (by intro e he; simp at he) e₂ h₂).2.2.2
  refine ⟨i₁, fun hm hc hid => ?_⟩
  rw [i₁, i₂, hm] at hid
  exact hc (List.append_cancel_right hid)

theorem C8_witness :
    ("c_a".toList : Str) = "c".toList ++ '_' :: "a".toList ∧
      ("c_a".toList : Str) ≠ "_a".toList := by
  have h := C8_id_derivation
    ("msgctxt \"c\"\nmsgid \"a\"\nmsgstr \"\"\n\nmsgid \"a\"\nmsgstr \"\"".toList)
    { id := "c_a".toList, msgid := "a".toList, msgstr := [],
      context := some "c".toList, comments := none,
      status := EStatus.pending } (by decide)
    { id := "_a".toList, msgid := "a".toList, msgstr := [],
      context := none, comments := none,
      status := EStatus.pending } (by decide)
  exact ⟨h.1, h.2 rfl (by decide)⟩

/-! ## Claim C7: comment extraction -/

theorem startsWith2_imp1 (a b : Char) (t : Str)
    (h : startsWith [a, b] t = true) : startsWith [a] t = true := by
  cases t with
  | nil => simp [startsWith] at h
  | cons x xs =>
    cases xs with
    | nil => simp [startsWith] at h
    | cons y ys =>
      simp [startsWith] at h ⊢
      exact h.1

theorem blockStep_comments (st : BState) (line : Str) :
    (blockStep st line).comments =
      st.comments ++
        (if startsWith ['#', '.'] (jsTrim line) ||
            startsWith ['#', ':'] (jsTrim line) then
          jsTrim ((jsTrim line).drop 2) ++ [' ']
        else []) := by
  unfold blockStep
  by_cases h0 : jsTrim line = []
  · rw [if_pos h0, h0]
    simp [startsWith]
  · rw [if_neg h0]
    by_cases h1 : startsWith ['#'] (jsTrim line) = true
    · rw [if_pos h1]
      by_cases h2 : startsWith ['#', '.'] (jsTrim line) = true
      · rw [if_pos h2]
        simp [h2, List.append_assoc]
      · rw [if_neg h2]
        by_cases h3 : startsWith ['#', ':'] (jsTrim line) = true
        · rw [if_pos h3]
          simp [h2, h3, List.append_assoc]
        · rw [if_neg h3]
          simp [h2, h3]
    · rw [if_neg h1]
      have h2 : ¬ startsWith ['#', '.'] (jsTrim line) = true :=
        fun hh => h1 (startsWith2_imp1 _ _ _ hh)
      have h3 : ¬ startsWith ['#', ':'] (jsTrim line) = true :=
        fun hh => h1 (startsWith2_imp1 _ _ _ hh)
      have h2f : startsWith ['#', '.'] (jsTrim line) = false := by
        simpa using h2
      have h3f : startsWith ['#', ':'] (jsTrim line) = false := by
        simpa using h3
      rw [if_neg (by simp [h2f, h3f] :
          ¬ (startsWith ['#', '.'] (jsTrim line) ||
              startsWith ['#', ':'] (jsTrim line)) = true),
        List.append_nil]
      split_ifs with g1 g2 g3
      · rfl
      · rfl
      · rfl
      · cases st.cur with
        | none => rfl
        | some f => cases f <;> rfl
      · rfl

theorem foldl_blockStep_comments :
    ∀ (lines : List Str) (st : BState),
      (lines.foldl blockStep st).comments =
        st.comments ++
          ((lines.filterMap fun line =>
              if startsWith ['#', '.'] (jsTrim line) ||
                  startsWith ['#', ':'] (jsTrim line) then
                some (jsTrim ((jsTrim line).drop 2))
              else none).flatMap fun p => p ++ [' '])
  | [], st => by simp
  | line :: lines, st => by
    rw [List.foldl_cons, foldl_blockStep_comments lines (blockStep st line),
      blockStep_comments st line]
    by_cases h : (startsWith ['#', '.'] (jsTrim line) ||
        startsWith ['#', ':'] (jsTrim line)) = true
    · rw [if_pos h]
      simp only [List.filterMap_cons, h, if_true, List.flatMap_cons,
        List.append_assoc]
    · rw [if_neg h]
      have hf : (startsWith ['#', '.'] (jsTrim line) ||
          startsWith ['#', ':'] (jsTrim line)) = false := by simpa using h
      simp only [List.filterMap_cons, hf, Bool.false_eq_true, if_false,
        List.append_nil]

theorem intercalate_cons2 (s x y : Str) (zs : List Str) :
    List.intercalate s (x :: y :: zs) =
      x ++ s ++ List.intercalate s (y :: zs) := by
  simp [List.intercalate, List.append_assoc]

theorem intercalate_single (s x : Str) : List.intercalate s [x] = x := by
  simp [List.intercalate]

theorem flatMap_space (ps : List Str) (hne : ps ≠ []) :
    (ps.flatMap fun p => p ++ [' ']) = List.intercalate [' '] ps ++ [' '] := by
  induction ps with
  | nil => cases hne rfl
  | cons p ps ih =>
    cases ps with
    | nil => simp [intercalate_single]
    | cons q qs =>
      rw [List.flatMap_cons, ih (by simp), intercalate_cons2]
      simp [List.append_assoc]

theorem trim_flatMap_space (ps : List Str) :
    jsTrim (ps.flatMap fun p => p ++ [' ']) =
      jsTrim (List.intercalate [' '] ps) := by
  cases ps with
  | nil => rfl
  | cons p ps =>
    rw [flatMap_space _ (by simp), jsTrim_concat_ws _ _ (by decide)]

/-- C7: only `#.` and `#:` comment lines contribute to `comments`; their
payload after the two-character prefix, trimmed, is joined with single
spaces; all other comment lines contribute nothing, and with no
contributing lines the field is absent. -/
theorem C7_comment_extraction (block : Str) :
    (parseBlock block).comments = commentsSpec block := by
  unfold parseBlock commentsSpec contribPieces
  simp only []
  rw [foldl_blockStep_comments (splitNL block) ⟨[], [], none, [], none⟩]
  rw [show (⟨[], [], none, [], none⟩ : BState).comments = [] from rfl,
    List.nil_append]
  rw [trim_flatMap_space]

/-! ## Claim C6: last-write-wins headers -/

theorem parse_headers_eq (content : Str) :
    (parsePOFile content).headers = headersOnly content := by
  show ((splitNN (normalizeEols content)).foldl poStep ⟨[], []⟩).headers = _
  rw [headers_foldl, headers_fold_filter]
  unfold headersOnly headerRecords nonBlankBlocks
  rw [List.foldl_map]

theorem lookupKey_cons (k1 v1 : Str) (hs : List (Str × Str)) (k : Str) :
    lookupKey ((k1, v1) :: hs) k =
      if k1 = k then some v1 else lookupKey hs k := by
  unfold lookupKey
  rw [List.find?_cons]
  by_cases h : k1 = k
  · have hb : (k1 == k) = true := by simp [h]
    rw [hb, if_pos h]
    rfl
  · have hb : (k1 == k) = false := by simp [h]
    rw [hb, if_neg h]

theorem lookup_setKey (hs : List (Str × Str)) (k v k' : Str) :
    lookupKey (setKey hs k v) k' =
      if k' = k then some v else lookupKey hs k' := by
  induction hs with
  | nil =>
    show lookupKey [(k, v)] k' = _
    rw [lookupKey_cons]
    by_cases hk : k' = k
    · rw [if_pos hk.symm, if_pos hk]
    · rw [if_neg (fun h => hk h.symm), if_neg hk]
  | cons p hs ih =>
    obtain ⟨k1, v1⟩ := p
    show lookupKey
        (if k1 = k then (k, v) :: hs else (k1, v1) :: setKey hs k v) k' = _
    by_cases h1 : k1 = k
    · rw [if_pos h1, lookupKey_cons, lookupKey_cons]
      by_cases hk : k = k'
      · rw [if_pos hk, if_pos hk.symm]
      · rw [if_neg hk, if_neg (fun h => hk h.symm),
          if_neg (fun h => hk (h1.symm.trans h))]
    · rw [if_neg h1, lookupKey_cons, ih, lookupKey_cons]
      by_cases hk1 : k1 = k'
      · rw [if_pos hk1, if_neg (fun h => h1 (hk1.trans h)), if_pos hk1]
      · rw [if_neg hk1]
        by_cases hk : k' = k
        · rw [if_pos hk, if_pos hk]
        · rw [if_neg hk, if_neg hk, if_neg hk1]

theorem foldl_headerStep (lines : List Str) (hs : List (Str × Str)) :
    lines.foldl headerStep hs =
      (lines.filterMap linePair).foldl
        (fun h kv => setKey h kv.1 kv.2) hs := by
  induction lines generalizing hs with
  | nil => rfl
  | cons line lines ih =>
    rw [List.foldl_cons]
    by_cases hc : 0 < colonIdx line ∧ colonIdx line < line.length
    · have hstep : headerStep hs line =
          setKey hs (jsTrim (line.take (colonIdx line)))
            (jsTrim (line.drop (colonIdx line + 1))) := by
        unfold headerStep
        rw [if_pos hc]
      have hlp : linePair line = some (jsTrim (line.take (colonIdx line)),
          jsTrim (line.drop (colonIdx line + 1))) := by
        unfold linePair
        rw [if_pos hc]
      rw [hstep, ih, List.filterMap_cons_some hlp, List.foldl_cons]
    · have hstep : headerStep hs line = hs := by
        unfold headerStep
        rw [if_neg hc]
      have hlp : linePair line = none := by
        unfold linePair
        rw [if_neg hc]
      rw [hstep, ih, List.filterMap_cons_none hlp]

theorem parseHeaders_pairs (r : Str) (hs : List (Str × Str)) :
    parseHeaders r hs =
      ((splitNL r).filterMap linePair).foldl
        (fun h kv => setKey h kv.1 kv.2) hs := by
  unfold parseHeaders
  exact foldl_headerStep _ _

theorem foldl_parseHeaders_records (records : List Str)
    (hs : List (Str × Str)) :
    records.foldl (fun h r => parseHeaders r h) hs =
      (records.flatMap fun r => (splitNL r).filterMap linePair).foldl
        (fun h kv => setKey h kv.1 kv.2) hs := by
  induction records generalizing hs with
  | nil => rfl
  | cons r rs ih =>
    rw [List.foldl_cons, ih, List.flatMap_cons, List.foldl_append,
      parseHeaders_pairs]

theorem getLast?_cons_ne_nil (p : Str × Str) (l : List (Str × Str))
    (hl : l ≠ []) : (p :: l).getLast? = l.getLast? := by
  cases l with
  | nil => cases hl rfl
  | cons q l2 => rw [List.getLast?_cons_cons]

theorem lookup_foldl_setKey (ps : List (Str × Str))
    (hs : List (Str × Str)) (k : Str) :
    lookupKey (ps.foldl (fun h kv => setKey h kv.1 kv.2) hs) k =
      (match lastAssign ps k with
       | some v => some v
       | none => lookupKey hs k) := by
  induction ps generalizing hs with
  | nil => simp [lastAssign]
  | cons p ps ih =>
    rw [List.foldl_cons, ih]
    by_cases hk : p.1 = k
    · have hbeq : (p.1 == k) = true := by simp [hk]
      cases hLA : lastAssign ps k with
      | some v =>
        have hfilter : (ps.filter fun kv => kv.1 == k) ≠ [] := by
          intro hnil
          unfold lastAssign at hLA
          rw [hnil] at hLA
          simp at hLA
        unfold lastAssign
        rw [List.filter_cons, if_pos (by simp [hbeq]),
          getLast?_cons_ne_nil _ _ hfilter]
        unfold lastAssign at hLA
        rw [hLA]
      | none =>
        have hfilter : (ps.filter fun kv => kv.1 == k) = [] := by
          unfold lastAssign at hLA
          cases hfe : ps.filter fun kv => kv.1 == k with
          | nil => rfl
          | cons q qs =>
            rw [hfe] at hLA
            have : (q :: qs).getLast? = some ((q :: qs).getLast (by simp)) :=
              List.getLast?_eq_getLast _ _
            rw [this] at hLA
            simp at hLA
        unfold lastAssign
        rw [List.filter_cons, if_pos (by simp [hbeq]), hfilter]
        simp [lookup_setKey, hk, lastAssign, hfilter]
    · have hbeq : (p.1 == k) = false := by simp [hk]
      unfold lastAssign
      rw [List.filter_cons, if_neg (by simp [hbeq])]
      cases hLA : lastAssign ps k with
      | some v =>
        unfold lastAssign at hLA
        rw [hLA]
      | none =>
        unfold lastAssign at hLA
        rw [hLA]
        rw [lookup_setKey, if_neg (fun hh => hk hh.symm)]

/-- C6: all header-classified blocks feed the single headers mapping:
reading any key from the parsed headers yields the value of the last
assignment executed across all header blocks in parse order, and with
no header-classified block the mapping is empty. -/
theorem C6_headers_last_write_wins (content : Str) :
    (∀ k, lookupKey (parsePOFile content).headers k =
        lastAssign (headerPairs content) k) ∧
      (headerRecords content = [] → (parsePOFile content).headers = []) := by
  constructor
  · intro k
    rw [parse_headers_eq]
    unfold headersOnly headerPairs
    rw [foldl_parseHeaders_records, lookup_foldl_setKey]
    cases lastAssign ((headerRecords content).flatMap
        fun r => (splitNL r).filterMap linePair) k with
    | some v => rfl
    | none => rfl
  · intro hrec
    rw [parse_headers_eq]
    unfold headersOnly
    rw [hrec]
    rfl

theorem C6_witness :
    lookupKey (parsePOFile
        ("msgid \"\"\nmsgstr \"A: 1\\n\"\n\nmsgid \"\"\nmsgstr \"A: 2\\n\"".toList)).headers
        ("A".toList) =
      lastAssign (headerPairs
        ("msgid \"\"\nmsgstr \"A: 1\\n\"\n\nmsgid \"\"\nmsgstr \"A: 2\\n\"".toList))
        ("A".toList) ∧
      (parsePOFile ("msgid \"a\"\nmsgstr \"b\"".toList)).headers = [] :=
  ⟨(C6_headers_last_write_wins _).1 _,
   (C6_headers_last_write_wins _).2 (by decide)⟩

/-! ## Claim C1: the value round trip -/

theorem entryLines_eq (e : TranslationEntry) :
    entryLines e = entryCoreLines e ++ [[]] := by
  unfold entryLines entryCoreLines
  cases e.comments <;> cases e.context <;> simp [List.append_assoc]

theorem joinNL_map_headerLine_ne_nil (hs : List (Str × Str)) (h : hs ≠ []) :
    joinNL (hs.map headerLine) ≠ [] := by
  cases hs with
  | nil => cases h rfl
  | cons kv hs2 =>
    cases hs2 with
    | nil => simp [joinNL, headerLine]
    | cons kv2 t =>
      rw [List.map_cons, List.map_cons, joinNL_cons2]
      simp [headerLine]

theorem generate_eq (M : ParsedPO) :
    generatePOFile M =
      joinNL ((headerBlockLines M.headers ::
          M.entries.map entryCoreLines).flatMap fun b => b ++ [[]]) := by
  have hflat : (M.entries.map entryCoreLines).flatMap (fun b => b ++ [[]]) =
      M.entries.flatMap entryLines := by
    rw [List.flatMap_map, funext entryLines_eq]
  rw [List.flatMap_cons, hflat]
  unfold generatePOFile headerBlockLines
  dsimp only
  by_cases hh : M.headers = []
  · rw [hh]
    simp [joinNL]
  · rw [if_neg (joinNL_map_headerLine_ne_nil M.headers hh)]
    have pre3ne : ([hdrComment, msgidKW ++ ['\"', '\"'],
        msgstrKW ++ ['\"', '\"']] : List Str) ≠ [] := by simp
    have mapne : M.headers.map headerLine ≠ [] := by
      intro hcon
      exact hh (by simpa using congrArg List.length hcon)
    rw [show ([hdrComment, msgidKW ++ ['\"', '\"'],
          msgstrKW ++ ['\"', '\"']] : List Str) ++
          [joinNL (M.headers.map headerLine)] ++ [[]] ++
          M.entries.flatMap entryLines =
        [hdrComment, msgidKW ++ ['\"', '\"'], msgstrKW ++ ['\"', '\"']] ++
          ([joinNL (M.headers.map headerLine)] ++
            ([[]] ++ M.entries.flatMap entryLines)) from by
      simp [List.append_assoc]]
    rw [joinNL_append _ _ pre3ne (by simp)]
    rw [joinNL_append _ _ (by simp) (by simp)]
    rw [show ([hdrComment, msgidKW ++ ['\"', '\"'],
          msgstrKW ++ ['\"', '\"']] : List Str) ++
          M.headers.map headerLine ++ [[]] ++
          M.entries.flatMap entryLines =
        [hdrComment, msgidKW ++ ['\"', '\"'], msgstrKW ++ ['\"', '\"']] ++
          (M.headers.map headerLine ++
            ([[]] ++ M.entries.flatMap entryLines)) from by
      simp [List.append_assoc]]
    rw [joinNL_append _ _ pre3ne (fun hcon =>
      mapne (List.append_eq_nil.mp hcon).1)]
    rw [joinNL_append _ _ mapne (by simp)]
    simp [joinNL]

theorem noSeq_of_not_mem (a b : Char) :
    ∀ (s : Str), a ∉ s → noSeq a b s = true
  | [], _ => rfl
  | [_], _ => rfl
  | x :: y :: r, h => by
    have hx : ¬ x = a := fun hh => h (hh ▸ List.mem_cons_self x (y :: r))
    have ht : a ∉ y :: r := fun hh => h (List.mem_cons_of_mem _ hh)
    unfold noSeq
    rw [Bool.and_eq_true]
    exact ⟨by simp [hx], noSeq_of_not_mem a b (y :: r) ht⟩

theorem noSeq_append_nl :
    ∀ (x y : Str), noSeq '\n' '\n' x = true → noSeq '\n' '\n' y = true →
      (x.getLast? ≠ some '\n' ∨ y.head? ≠ some '\n') →
      noSeq '\n' '\n' (x ++ y) = true
  | [], y, _, hy, _ => hy
  | [c], y, _, hy, hb => by
    cases y with
    | nil => rfl
    | cons d y2 =>
      have hcd : ¬ (c = '\n' ∧ d = '\n') := by
        rintro ⟨rfl, rfl⟩
        rcases hb with hb | hb
        · exact hb rfl
        · exact hb rfl
      rw [List.singleton_append]
      unfold noSeq
      rw [Bool.and_eq_true]
      refine ⟨?_, hy⟩
      simp only [Bool.not_eq_eq_eq_not, Bool.not_true, Bool.and_eq_false_iff]
      by_cases hc : c = '\n'
      · subst hc
        right
        have : ¬ d = '\n' := fun hh => hcd ⟨rfl, hh⟩
        simp [this]
      · left
        simp [hc]
  | c :: c2 :: x2, y, hx, hy, hb => by
    have h1 : noSeq '\n' '\n' (c2 :: x2) = true := noSeq_tail _ _ _ _ hx
    have hb2 : (c2 :: x2).getLast? ≠ some '\n' ∨ y.head? ≠ some '\n' := by
      rcases hb with hb | hb
      · left
        rwa [List.getLast?_cons_cons] at hb
      · right
        exact hb
    have hrec := noSeq_append_nl (c2 :: x2) y h1 hy hb2
    show noSeq '\n' '\n' (c :: (c2 :: x2 ++ y)) = true
    rw [show c2 :: x2 ++ y = c2 :: (x2 ++ y) from rfl] at hrec ⊢
    unfold noSeq
    rw [Bool.and_eq_true]
    refine ⟨?_, hrec⟩
    unfold noSeq at hx
    rw [Bool.and_eq_true] at hx
    exact hx.1

theorem head?_mem_ne (l : Str) (c : Char) (hm : '\n' ∉ l)
    (hc : l.head? = some c) : ¬ c = '\n' := by
  intro hcc
  cases l with
  | nil => simp at hc
  | cons a t =>
    have : a = c := by simpa using hc
    exact hm (by rw [this, hcc]; exact List.mem_cons_self _ _)

theorem getLast?_mem_ne (l : Str) (c : Char) (hm : '\n' ∉ l)
    (hc : l.getLast? = some c) : ¬ c = '\n' := by
  rintro rfl
  obtain ⟨hne, heq⟩ := List.mem_getLast?_eq_getLast hc
  exact hm (heq ▸ List.getLast_mem hne)

theorem joinNL_head_eq (l : Str) (ls : List Str) (hl : l ≠ []) :
    (joinNL (l :: ls)).head? = l.head? := by
  cases ls with
  | nil => rfl
  | cons l2 ls2 =>
    rw [joinNL_cons2, List.head?_append]
    cases l with
    | nil => cases hl rfl
    | cons a t => rfl

theorem joinNL_getLast_ne_nl :
    ∀ (b : List Str), (∀ l ∈ b, l ≠ [] ∧ '\n' ∉ l) →
      (joinNL b).getLast? ≠ some '\n'
  | [], _ => by simp [joinNL]
  | [l], h => by
    show l.getLast? ≠ some '\n'
    intro hc
    exact getLast?_mem_ne l '\n' (h l (by simp)).2 hc rfl
  | l :: l2 :: b2, h => by
    rw [joinNL_cons2]
    have hrec := joinNL_getLast_ne_nl (l2 :: b2)
      (fun x hx => h x (List.mem_cons_of_mem _ hx))
    have hjne : joinNL (l2 :: b2) ≠ [] := by
      intro hcon
      have := joinNL_head_eq l2 b2 (h l2 (by simp)).1
      rw [hcon] at this
      cases hl2 : l2 with
      | nil => exact (h l2 (by simp)).1 hl2
      | cons a t =>
        rw [hl2] at this
        simp at this
    rw [List.getLast?_append]
    have hcons : ('\n' :: joinNL (l2 :: b2)).getLast? =
        (joinNL (l2 :: b2)).getLast? := by
      cases hj : joinNL (l2 :: b2) with
      | nil => cases hjne hj
      | cons a t => exact List.getLast?_cons_cons
    rw [hcons]
    cases hgl : (joinNL (l2 :: b2)).getLast? with
    | none =>
      show Option.or none l.getLast? ≠ some '\n'
      rw [Option.none_or]
      intro hc
      exact getLast?_mem_ne l '\n' (h l (by simp)).2 hc rfl
    | some c =>
      show Option.or (some c) l.getLast? ≠ some '\n'
      rw [show Option.or (some c) l.getLast? = some c from rfl]
      intro hcon
      exact hrec (hgl.trans hcon)

theorem joinNL_noNN :
    ∀ (b : List Str), (∀ l ∈ b, l ≠ [] ∧ '\n' ∉ l) →
      noSeq '\n' '\n' (joinNL b) = true
  | [], _ => rfl
  | [l], h => noSeq_of_not_mem _ _ l (h l (by simp)).2
  | l :: l2 :: b2, h => by
    rw [joinNL_cons2]
    have hrec := joinNL_noNN (l2 :: b2)
      (fun x hx => h x (List.mem_cons_of_mem _ hx))
    have hl2 := h l2 (by simp)
    have hy : noSeq '\n' '\n' ('\n' :: joinNL (l2 :: b2)) = true := by
      cases hj : joinNL (l2 :: b2) with
      | nil => rfl
      | cons a t =>
        have hhead : (joinNL (l2 :: b2)).head? = l2.head? :=
          joinNL_head_eq l2 b2 hl2.1
        rw [hj] at hhead
        have ha : ¬ a = '\n' := by
          apply head?_mem_ne l2 a hl2.2
          rw [← hhead]
          rfl
        unfold noSeq
        rw [Bool.and_eq_true]
        refine ⟨by simp [ha], ?_⟩
        rw [← hj]
        exact hrec
    exact noSeq_append_nl l ('\n' :: joinNL (l2 :: b2))
      (noSeq_of_not_mem _ _ l (h l (by simp)).2) hy
      (Or.inl (fun hc => getLast?_mem_ne l '\n' (h l (by simp)).2 hc rfl))

theorem mem_joinNL :
    ∀ (ls : List Str) (c : Char), c ∈ joinNL ls →
      c = '\n' ∨ ∃ l ∈ ls, c ∈ l
  | [], c, h => by simp [joinNL] at h
  | [l], c, h => Or.inr ⟨l, by simp, h⟩
  | l :: l2 :: ls2, c, h => by
    rw [joinNL_cons2, List.mem_append] at h
    rcases h with h | h
    · exact Or.inr ⟨l, by simp, h⟩
    · rw [List.mem_cons] at h
      rcases h with h | h
      · exact Or.inl h
      · rcases mem_joinNL (l2 :: ls2) c h with h2 | ⟨x, hx, hcx⟩
        · exact Or.inl h2
        · exact Or.inr ⟨x, List.mem_cons_of_mem _ hx, hcx⟩

theorem mem_joinNL_of_mem (ls : List Str) (l : Str) (c : Char)
    (hl : l ∈ ls) (hc : c ∈ l) : c ∈ joinNL ls := by
  induction ls with
  | nil => simp at hl
  | cons x ls2 ih =>
    rw [List.mem_cons] at hl
    cases ls2 with
    | nil =>
      rcases hl with rfl | hl
      · exact hc
      · simp at hl
    | cons y t =>
      rw [joinNL_cons2, List.mem_append]
      rcases hl with rfl | hl
      · exact Or.inl hc
      · exact Or.inr (List.mem_cons_of_mem _ (ih hl))

theorem jsTrim_eq_nil_all_ws (s : Str) (h : jsTrim s = []) :
    ∀ c ∈ s, isWS c = true := by
  unfold jsTrim at h
  have h1 : (s.dropWhile isWS).reverse.dropWhile isWS = [] := by
    rwa [List.reverse_eq_nil_iff] at h
  rw [List.dropWhile_eq_nil_iff] at h1
  have h2 : ∀ x ∈ s.dropWhile isWS, isWS x = true := by
    intro x hx
    exact h1 x (by rwa [List.mem_reverse])
  have h3 : s.dropWhile isWS = [] := by
    cases hd : s.dropWhile isWS with
    | nil => rfl
    | cons a t =>
      have ha := List.head?_dropWhile_not isWS s
      rw [hd] at ha
      simp only [List.head?_cons] at ha
      have := h2 a (by rw [hd]; exact List.mem_cons_self _ _)
      rw [this] at ha
      simp at ha
  rw [List.dropWhile_eq_nil_iff] at h3
  exact h3

theorem jsTrim_ne_nil_of_mem (s : Str) (c : Char) (hc : c ∈ s)
    (hw : isWS c = false) : jsTrim s ≠ [] := by
  intro h
  have := jsTrim_eq_nil_all_ws s h c hc
  rw [this] at hw
  cases hw

theorem blockStep_nil_line (st : BState) : blockStep st [] = st := by
  unfold blockStep
  dsimp only
  rw [if_pos (show (jsTrim [] : Str) = [] from rfl)]

theorem parseBlock_trailNL (T : Str) :
    parseBlock (T ++ ['\n']) = parseBlock T := by
  unfold parseBlock
  rw [splitNL_concat_nl, List.foldl_append]
  rw [show List.foldl blockStep ((splitNL T).foldl blockStep
      ⟨[], [], none, [], none⟩) [[]] =
    blockStep ((splitNL T).foldl blockStep ⟨[], [], none, [], none⟩) []
    from rfl]
  rw [blockStep_nil_line]

theorem poStep_trailNL (po : ParsedPO) (T : Str) :
    poStep po (T ++ ['\n']) = poStep po T := by
  unfold poStep
  rw [jsTrim_concat_ws T '\n' (by decide), parseBlock_trailNL]

theorem replace2_id_of_not_mem (p q : Char) (r : Str) :
    ∀ (s : Str), p ∉ s → replace2 p q r s = s
  | [], _ => rfl
  | a :: t, h => by
    have ha : a ≠ p := fun hh => h (hh ▸ List.mem_cons_self a t)
    rw [replace2_cons_ne _ _ _ _ _ (fun hap => absurd hap ha),
      replace2_id_of_not_mem p q r t (fun hh => h (List.mem_cons_of_mem _ hh))]

theorem replaceC_id_of_not_mem (c : Char) (r : Str) :
    ∀ (s : Str), c ∉ s → replaceC c r s = s
  | [], _ => rfl
  | a :: t, h => by
    have ha : ¬ a = c := fun hh => h (hh ▸ List.mem_cons_self a t)
    show (if a = c then r else [a]) ++ replaceC c r t = a :: t
    rw [if_neg ha,
      replaceC_id_of_not_mem c r t (fun hh => h (List.mem_cons_of_mem _ hh))]
    rfl

theorem normalize_id (s : Str) (h : '\r' ∉ s) : normalizeEols s = s := by
  unfold normalizeEols
  rw [replace2_id_of_not_mem _ _ _ _ h, replaceC_id_of_not_mem _ _ _ h]

theorem fold_gen_blocks :
    ∀ (bs : List (List Str)) (po : ParsedPO),
      (∀ b ∈ bs, b ≠ [] ∧ ∀ l ∈ b, l ≠ [] ∧ '\n' ∉ l) → bs ≠ [] →
      (splitNN (joinNL (bs.flatMap fun b => b ++ [[]]))).foldl poStep po =
        bs.foldl (fun p b => poStep p (joinNL b)) po
  | [], _, _, hne => absurd rfl hne
  | [b], po, h, _ => by
    have hb := h b (by simp)
    rw [List.flatMap_cons, List.flatMap_nil, List.append_nil]
    rw [joinNL_append b [[]] hb.1 (by simp)]
    rw [show joinNL [[]] = ([] : Str) from rfl]
    rw [splitNN_last (joinNL b) (joinNL_noNN b hb.2)
      (joinNL_getLast_ne_nl b hb.2)]
    rw [List.foldl_cons, List.foldl_nil, List.foldl_cons, List.foldl_nil]
    exact poStep_trailNL po (joinNL b)
  | b :: b2 :: bs2, po, h, _ => by
    have hb := h b (by simp)
    have hrest : ∀ x ∈ b2 :: bs2, x ≠ [] ∧ ∀ l ∈ x, l ≠ [] ∧ '\n' ∉ l :=
      fun x hx => h x (List.mem_cons_of_mem _ hx)
    rw [List.flatMap_cons]
    have hfmne : ((b2 :: bs2).flatMap fun x => x ++ [[]]) ≠ [] := by
      rw [List.flatMap_cons]
      have hb2ne := (hrest b2 (by simp)).1
      cases b2 with
      | nil => cases hb2ne rfl
      | cons l t => simp
    rw [joinNL_append (b ++ [[]]) _ (by simp) hfmne]
    rw [joinNL_append b [[]] hb.1 (by simp)]
    rw [show joinNL [[]] = ([] : Str) from rfl]
    rw [show (joinNL b ++ ['\n']) ++
          '\n' :: joinNL ((b2 :: bs2).flatMap fun x => x ++ [[]]) =
        joinNL b ++
          '\n' :: '\n' :: joinNL ((b2 :: bs2).flatMap fun x => x ++ [[]])
        from by simp [List.append_assoc]]
    have hzhead :
        (joinNL ((b2 :: bs2).flatMap fun x => x ++ [[]])).head? ≠
          some '\n' := by
      obtain ⟨l, t, hb2⟩ : ∃ l t, b2 = l :: t := by
        cases hc : b2 with
        | nil => cases (hrest b2 (by simp)).1 hc
        | cons l t => exact ⟨l, t, rfl⟩
      have hl := (hrest b2 (by simp)).2 l (by rw [hb2]; simp)
      rw [List.flatMap_cons, hb2]
      rw [show ((l :: t) ++ [[]]) ++ (bs2.flatMap fun x => x ++ [[]]) =
          l :: (t ++ [[]] ++ (bs2.flatMap fun x => x ++ [[]])) from by
        simp [List.append_assoc]]
      rw [joinNL_head_eq l _ hl.1]
      intro hc
      exact head?_mem_ne l '\n' hl.2 hc rfl
    rw [splitNN_sep (joinNL b) _ (joinNL_noNN b hb.2)
      (joinNL_getLast_ne_nl b hb.2) hzhead]
    rw [List.foldl_cons, List.foldl_cons]
    exact fold_gen_blocks (b2 :: bs2) (poStep po (joinNL b)) hrest (by simp)

theorem replace2_skip (p q : Char) (r : Str) :
    ∀ (xs t : Str), p ∉ xs →
      replace2 p q r (xs ++ t) = xs ++ replace2 p q r t
  | [], t, _ => rfl
  | a :: xs2, t, h => by
    have ha : a ≠ p := fun hh => h (hh ▸ List.mem_cons_self a xs2)
    rw [show (a :: xs2) ++ t = a :: (xs2 ++ t) from rfl,
      replace2_cons_ne _ _ _ _ _ (fun hap => absurd hap ha),
      replace2_skip p q r xs2 t
        (fun hh => h (List.mem_cons_of_mem _ hh))]
    rfl

theorem unescape_bsfree_nl (xs : Str) (h : '\\' ∉ xs) :
    unescapePO (xs ++ ['\\', 'n']) = xs ++ ['\n'] := by
  have hnm : '\\' ∉ xs ++ ['\n'] := by
    intro hm
    rw [List.mem_append] at hm
    rcases hm with hm | hm
    · exact h hm
    · simp at hm
  unfold unescapePO
  rw [replace2_skip '\\' 'n' _ xs _ h, replace2_hit,
    show replace2 '\\' 'n' ['\n'] [] = [] from rfl, List.append_nil,
    replace2_id_of_not_mem _ _ _ _ hnm, replace2_id_of_not_mem _ _ _ _ hnm,
    replace2_id_of_not_mem _ _ _ _ hnm, replace2_id_of_not_mem _ _ _ _ hnm]

theorem extract_headerLine (kv : Str × Str) (hkv : headerKVOk kv) :
    extractString (headerLine kv) =
      kv.1 ++ ':' :: ' ' :: kv.2 ++ ['\n'] := by
  obtain ⟨hk1, hk2, hkp, hvp⟩ := hkv
  have hbs : '\\' ∉ kv.1 ++ ':' :: ' ' :: kv.2 := by
    intro hm
    rcases List.mem_append.mp hm with hm | hm
    · exact (hkp.2 _ hm).2.2.1 rfl
    · rcases List.mem_cons.mp hm with hm | hm
      · exact absurd hm (by decide)
      · rcases List.mem_cons.mp hm with hm | hm
        · exact absurd hm (by decide)
        · exact (hvp.2 _ hm).2.2.1 rfl
  have hterm : ∀ x ∈ kv.1 ++ ':' :: ' ' :: kv.2 ++ ['\\', 'n'],
      isLineTerm x = false := by
    intro x hx
    rcases List.mem_append.mp hx with hx | hx
    · rcases List.mem_append.mp hx with hx | hx
      · have hh := hkp.2 x hx
        simp [isLineTerm, hh.1, hh.2.1, hh.2.2.2.1, hh.2.2.2.2]
      · rcases List.mem_cons.mp hx with rfl | hx
        · decide
        · rcases List.mem_cons.mp hx with rfl | hx
          · decide
          · have hh := hvp.2 x hx
            simp [isLineTerm, hh.1, hh.2.1, hh.2.2.2.1, hh.2.2.2.2]
    · rcases List.mem_cons.mp hx with rfl | hx
      · decide
      · rcases List.mem_cons.mp hx with rfl | hx
        · decide
        · cases hx
  set X := kv.1 ++ ':' :: ' ' :: kv.2 ++ ['\\', 'n'] with hX
  have hshape : headerLine kv = '\"' :: (X ++ ['\"']) := by
    rw [hX]
    simp [headerLine, List.append_assoc]
  rw [hshape]
  unfold extractString
  have hmid : (('\"' :: (X ++ ['\"'])).drop 1).dropLast = X := by
    rw [show ('\"' :: (X ++ ['\"'])).drop 1 = X ++ ['\"'] from rfl]
    exact List.dropLast_concat
  have hlast : ('\"' :: (X ++ ['\"'])).getLast? = some '\"' := by
    rw [show ('\"' :: (X ++ ['\"'])) = ('\"' :: X) ++ ['\"'] from rfl]
    exact List.getLast?_concat _
  have hall : (('\"' :: (X ++ ['\"'])).drop 1).dropLast.all
      (fun c => !isLineTerm c) = true := by
    rw [hmid, List.all_eq_true]
    intro x hx
    rw [hterm x (by rwa [hX] at hx)]
    rfl
  rw [if_pos ⟨by simp, rfl, hlast, hall⟩, hmid, hX]
  exact unescape_bsfree_nl _ hbs

theorem jsTrim_concat_line (a : Char) (mid : Str) (z : Char)
    (ha : isWS a = false) (hz : isWS z = false) :
    jsTrim ((a :: mid) ++ [z]) = (a :: mid) ++ [z] := by
  apply jsTrim_eq_self
  · intro c hc
    have hac : a = c := by simpa using hc
    exact hac ▸ ha
  · intro c hc
    rw [List.getLast?_concat] at hc
    have hzc : z = c := by simpa using hc
    exact hzc ▸ hz

theorem blockStep_hdrComment (st : BState) : blockStep st hdrComment = st := by
  unfold blockStep
  dsimp only
  rw [show jsTrim hdrComment = hdrComment from by decide]
  rw [if_neg (by decide), if_pos (by decide), if_neg (by decide),
    if_neg (by decide)]

theorem blockStep_msgid_empty (st : BState) :
    blockStep st (msgidKW ++ ['\"', '\"']) =
      { st with msgid := [], cur := some PField.fmsgid } := by
  unfold blockStep
  dsimp only
  rw [show jsTrim (msgidKW ++ ['\"', '\"']) = msgidKW ++ ['\"', '\"']
    from by decide]
  rw [if_neg (by decide), if_neg (by decide), if_neg (by decide),
    if_pos (by decide)]
  rw [show extractString ((msgidKW ++ ['\"', '\"']).drop 6) = [] from by
    decide]

theorem blockStep_msgstr_empty (st : BState) :
    blockStep st (msgstrKW ++ ['\"', '\"']) =
      { st with msgstr := [], cur := some PField.fmsgstr } := by
  unfold blockStep
  dsimp only
  rw [show jsTrim (msgstrKW ++ ['\"', '\"']) = msgstrKW ++ ['\"', '\"']
    from by decide]
  rw [if_neg (by decide), if_neg (by decide), if_neg (by decide),
    if_neg (by decide), if_pos (by decide)]
  rw [show extractString ((msgstrKW ++ ['\"', '\"']).drop 7) = [] from by
    decide]

theorem escapeString_last (x : Str) :
    (escapeString x).getLast? = some '\"' := by
  unfold escapeString
  rw [show '\"' :: escCore x ++ ['\"'] = ('\"' :: escCore x) ++ ['\"']
    from rfl]
  exact List.getLast?_concat _

theorem jsTrim_kw_escape (kw : Str) (x : Str) (a : Char) (t : Str)
    (hkw : kw = a :: t) (ha : isWS a = false) :
    jsTrim (kw ++ escapeString x) = kw ++ escapeString x := by
  subst hkw
  rw [show (a :: t) ++ escapeString x =
    (a :: (t ++ '\"' :: escCore x)) ++ ['\"'] from by
    simp [escapeString, List.append_assoc]]
  exact jsTrim_concat_line a _ '\"' ha (by decide)

theorem blockStep_msgid_line (st : BState) (x : Str) :
    blockStep st (msgidKW ++ escapeString x) =
      { st with msgid := extractString (escapeString x),
                cur := some PField.fmsgid } := by
  unfold blockStep
  dsimp only
  rw [jsTrim_kw_escape msgidKW x 'm' _ rfl (by decide)]
  rw [if_neg (by simp [msgidKW, escapeString]),
    if_neg (by simp [msgidKW, startsWith]),
    if_neg (by simp [msgidKW, msgctxtKW, startsWith]),
    if_pos (startsWith_same msgidKW (escapeString x))]
  rw [List.drop_left' (show msgidKW.length = 6 from rfl)]

theorem blockStep_msgstr_line (st : BState) (x : Str) :
    blockStep st (msgstrKW ++ escapeString x) =
      { st with msgstr := extractString (escapeString x),
                cur := some PField.fmsgstr } := by
  unfold blockStep
  dsimp only
  rw [jsTrim_kw_escape msgstrKW x 'm' _ rfl (by decide)]
  rw [if_neg (by simp [msgstrKW, escapeString]),
    if_neg (by simp [msgstrKW, startsWith]),
    if_neg (by simp [msgstrKW, msgctxtKW, startsWith]),
    if_neg (by simp [msgstrKW, msgidKW, startsWith]),
    if_pos (startsWith_same msgstrKW (escapeString x))]
  rw [List.drop_left' (show msgstrKW.length = 7 from rfl)]

theorem blockStep_msgctxt_line (st : BState) (x : Str) :
    blockStep st (msgctxtKW ++ escapeString x) =
      { st with context := some (extractString (escapeString x)),
                cur := some PField.fmsgctxt } := by
  unfold blockStep
  dsimp only
  rw [jsTrim_kw_escape msgctxtKW x 'm' _ rfl (by decide)]
  rw [if_neg (by simp [msgctxtKW, escapeString]),
    if_neg (by simp [msgctxtKW, startsWith]),
    if_pos (startsWith_same msgctxtKW (escapeString x))]
  rw [List.drop_left' (show msgctxtKW.length = 8 from rfl)]

theorem blockStep_comment_line (st : BState) (c : Str) (hc1 : c ≠ [])
    (hc2 : jsTrim c = c) :
    blockStep st (['#', '.', ' '] ++ c) =
      { st with comments := st.comments ++ c ++ [' '] } := by
  have htrim : jsTrim (['#', '.', ' '] ++ c) = ['#', '.', ' '] ++ c := by
    apply jsTrim_eq_self
    · intro d hd
      have : '#' = d := by simpa using hd
      subst this
      decide
    · intro d hd
      rw [List.getLast?_append_of_ne_nil _ hc1] at hd
      exact last_not_ws_of_jsTrim c hc2 d hd
  unfold blockStep
  dsimp only
  rw [htrim]
  rw [if_neg (by simp), if_pos (by simp [startsWith]),
    if_pos (by simp [startsWith])]
  rw [show (['#', '.', ' '] ++ c).drop 2 = ' ' :: c from rfl,
    jsTrim_cons_ws ' ' c (by decide), hc2]

theorem blockStep_headerLine (st : BState) (kv : Str × Str)
    (hkv : headerKVOk kv) (hcur : st.cur = some PField.fmsgstr) :
    blockStep st (headerLine kv) =
      { st with msgstr :=
          st.msgstr ++ (kv.1 ++ ':' :: ' ' :: kv.2 ++ ['\n']) } := by
  have hshape : headerLine kv =
      ('\"' :: (kv.1 ++ ':' :: ' ' :: kv.2 ++ ['\\', 'n'])) ++ ['\"'] := by
    simp [headerLine, List.append_assoc]
  have htrim : jsTrim (headerLine kv) = headerLine kv := by
    rw [hshape]
    exact jsTrim_concat_line '\"' _ '\"' (by decide) (by decide)
  have hlast : (headerLine kv).getLast? = some '\"' := by
    rw [hshape]
    exact List.getLast?_concat _
  unfold blockStep
  dsimp only
  rw [htrim]
  rw [if_neg (by simp [headerLine]),
    if_neg (by simp [headerLine, startsWith]),
    if_neg (by simp [headerLine, msgctxtKW, startsWith]),
    if_neg (by simp [headerLine, msgidKW, startsWith]),
    if_neg (by simp [headerLine, msgstrKW, startsWith]),
    if_pos ⟨by simp [headerLine, startsWith], hlast⟩]
  rw [hcur]
  rw [extract_headerLine kv hkv]

theorem nl_not_mem_headerLine (kv : Str × Str) (hkv : headerKVOk kv) :
    '\n' ∉ headerLine kv := by
  obtain ⟨_, _, hkp, hvp⟩ := hkv
  intro hm
  unfold headerLine at hm
  rcases List.mem_cons.mp hm with hm | hm
  · exact absurd hm (by decide)
  · rcases List.mem_append.mp hm with hm | hm
    · rcases List.mem_append.mp hm with hm | hm
      · exact (hkp.2 _ hm).1 rfl
      · rcases List.mem_cons.mp hm with hm | hm
        · exact absurd hm (by decide)
        · rcases List.mem_cons.mp hm with hm | hm
          · exact absurd hm (by decide)
          · exact (hvp.2 _ hm).1 rfl
    · rcases List.mem_cons.mp hm with hm | hm
      · exact absurd hm (by decide)
      · rcases List.mem_cons.mp hm with hm | hm
        · exact absurd hm (by decide)
        · rcases List.mem_cons.mp hm with hm | hm
          · exact absurd hm (by decide)
          · cases hm

theorem headerBlockLines_ok (hs : List (Str × Str))
    (h : ∀ kv ∈ hs, headerKVOk kv) :
    ∀ l ∈ headerBlockLines hs, l ≠ [] ∧ '\n' ∉ l := by
  intro l hl
  unfold headerBlockLines at hl
  rcases List.mem_append.mp hl with hl | hl
  · rcases List.mem_cons.mp hl with rfl | hl
    · exact ⟨by decide, by decide⟩
    · rcases List.mem_cons.mp hl with rfl | hl
      · exact ⟨by decide, by decide⟩
      · rcases List.mem_cons.mp hl with rfl | hl
        · exact ⟨by decide, by decide⟩
        · cases hl
  · rw [List.mem_map] at hl
    obtain ⟨kv, hkv, rfl⟩ := hl
    exact ⟨by simp [headerLine], nl_not_mem_headerLine kv (h kv hkv)⟩

theorem fold_headerLines (hs : List (Str × Str))
    (h : ∀ kv ∈ hs, headerKVOk kv) :
    ∀ st : BState, st.cur = some PField.fmsgstr →
      (hs.map headerLine).foldl blockStep st =
        { st with msgstr := st.msgstr ++
            hs.flatMap fun kv => kv.1 ++ ':' :: ' ' :: kv.2 ++ ['\n'] } := by
  induction hs with
  | nil =>
    intro st _
    simp only [List.map_nil, List.foldl_nil, List.flatMap_nil,
      List.append_nil]
  | cons kv hs2 ih =>
    intro st hcur
    rw [List.map_cons, List.foldl_cons,
      blockStep_headerLine st kv (h kv (by simp)) hcur]
    rw [ih (fun x hx => h x (List.mem_cons_of_mem _ hx)) _ (by exact hcur)]
    simp [List.flatMap_cons, List.append_assoc]

theorem parseBlock_header (hs : List (Str × Str))
    (h : ∀ kv ∈ hs, headerKVOk kv) :
    parseBlock (headerBlockText hs) =
      { msgid := [],
        msgstr := hs.flatMap fun kv => kv.1 ++ ':' :: ' ' :: kv.2 ++ ['\n'],
        context := none, comments := none } := by
  unfold parseBlock headerBlockText
  rw [splitNL_joinNL (headerBlockLines hs)
    (fun l hl => (headerBlockLines_ok hs h l hl).2)
    (by simp [headerBlockLines])]
  unfold headerBlockLines
  rw [List.foldl_append]
  rw [show List.foldl blockStep ⟨[], [], none, [], none⟩
      [hdrComment, msgidKW ++ ['\"', '\"'], msgstrKW ++ ['\"', '\"']] =
    blockStep (blockStep (blockStep ⟨[], [], none, [], none⟩ hdrComment)
      (msgidKW ++ ['\"', '\"'])) (msgstrKW ++ ['\"', '\"']) from rfl]
  rw [blockStep_hdrComment, blockStep_msgid_empty, blockStep_msgstr_empty]
  rw [fold_headerLines hs h _ rfl]
  rfl

theorem colonIdx_append :
    ∀ (K : Str), ':' ∉ K → ∀ (t : Str),
      colonIdx (K ++ ':' :: t) = K.length
  | [], _, t => by simp [colonIdx]
  | a :: K2, h, t => by
    have ha : ¬ a = ':' := fun hh => h (hh ▸ List.mem_cons_self a K2)
    show colonIdx (a :: (K2 ++ ':' :: t)) = K2.length + 1
    unfold colonIdx
    rw [if_neg ha,
      colonIdx_append K2 (fun hh => h (List.mem_cons_of_mem _ hh)) t]

theorem headerStep_line (hs0 : List (Str × Str)) (kv : Str × Str)
    (hkv : headerKVOk kv) :
    headerStep hs0 (kv.1 ++ ':' :: ' ' :: kv.2) = setKey hs0 kv.1 kv.2 := by
  obtain ⟨hk1, hk2, hkp, hvp⟩ := hkv
  have hci : colonIdx (kv.1 ++ ':' :: ' ' :: kv.2) = kv.1.length :=
    colonIdx_append kv.1 hk2 _
  have hlen : (kv.1 ++ ':' :: ' ' :: kv.2).length =
      kv.1.length + kv.2.length + 2 := by
    simp
    omega
  unfold headerStep
  dsimp only
  rw [hci]
  have hk1len : 0 < kv.1.length := by
    cases hke : kv.1 with
    | nil => cases hk1 hke
    | cons a t => simp
  rw [if_pos ⟨hk1len, by rw [hlen]; omega⟩]
  rw [List.take_left' rfl]
  rw [show kv.1 ++ ':' :: ' ' :: kv.2 = (kv.1 ++ [':']) ++ ' ' :: kv.2
    from by simp [List.append_assoc]]
  rw [List.drop_left' (by simp)]
  rw [jsTrim_cons_ws ' ' kv.2 (by decide), hkp.1, hvp.1]

theorem headerStep_nil (hs0 : List (Str × Str)) : headerStep hs0 [] = hs0 := by
  unfold headerStep
  rw [if_neg (by simp [colonIdx])]

theorem setKey_append_of_not_mem :
    ∀ (hs0 : List (Str × Str)) (k v : Str),
      k ∉ hs0.map Prod.fst → setKey hs0 k v = hs0 ++ [(k, v)]
  | [], _, _, _ => rfl
  | (k1, v1) :: hs2, k, v, h => by
    have hk1 : ¬ k1 = k := by
      intro hh
      apply h
      rw [List.map_cons, ← hh]
      exact List.mem_cons_self _ _
    have h2 : k ∉ hs2.map Prod.fst := by
      intro hm
      apply h
      rw [List.map_cons]
      exact List.mem_cons_of_mem _ hm
    show (if k1 = k then (k, v) :: hs2 else (k1, v1) :: setKey hs2 k v) = _
    rw [if_neg hk1, setKey_append_of_not_mem hs2 k v h2]
    rfl

theorem splitNL_headerVal :
    ∀ (hs : List (Str × Str)), (∀ kv ∈ hs, headerKVOk kv) →
      splitNL (hs.flatMap fun kv => kv.1 ++ ':' :: ' ' :: kv.2 ++ ['\n']) =
        (hs.map fun kv => kv.1 ++ ':' :: ' ' :: kv.2) ++ [[]]
  | [], _ => rfl
  | kv :: hs2, h => by
    obtain ⟨hk1, hk2, hkp, hvp⟩ := h kv (by simp)
    have hnl : '\n' ∉ kv.1 ++ ':' :: ' ' :: kv.2 := by
      intro hm
      rcases List.mem_append.mp hm with hm | hm
      · exact (hkp.2 _ hm).1 rfl
      · rcases List.mem_cons.mp hm with hm | hm
        · exact absurd hm (by decide)
        · rcases List.mem_cons.mp hm with hm | hm
          · exact absurd hm (by decide)
          · exact (hvp.2 _ hm).1 rfl
    rw [List.flatMap_cons]
    rw [show (kv.1 ++ ':' :: ' ' :: kv.2 ++ ['\n']) ++
        (hs2.flatMap fun kv => kv.1 ++ ':' :: ' ' :: kv.2 ++ ['\n']) =
      (kv.1 ++ ':' :: ' ' :: kv.2) ++ '\n' ::
        (hs2.flatMap fun kv => kv.1 ++ ':' :: ' ' :: kv.2 ++ ['\n'])
      from by simp [List.append_assoc]]
    rw [splitNL_append_nl _ _ hnl,
      splitNL_headerVal hs2 (fun x hx => h x (List.mem_cons_of_mem _ hx))]
    rfl

theorem fold_header_lines :
    ∀ (hs : List (Str × Str)) (acc : List (Str × Str)),
      (∀ kv ∈ hs, headerKVOk kv) → (hs.map Prod.fst).Nodup →
      (∀ kv ∈ hs, kv.1 ∉ acc.map Prod.fst) →
      ((hs.map fun kv => kv.1 ++ ':' :: ' ' :: kv.2).foldl headerStep acc) =
        acc ++ hs
  | [], acc, _, _, _ => by simp
  | kv :: hs2, acc, hok, hnd, hacc => by
    rw [List.map_cons, List.foldl_cons,
      headerStep_line acc kv (hok kv (by simp)),
      setKey_append_of_not_mem acc kv.1 kv.2 (hacc kv (by simp))]
    have hnd2 : (hs2.map Prod.fst).Nodup := by
      rw [List.map_cons, List.nodup_cons] at hnd
      exact hnd.2
    have hhd : kv.1 ∉ hs2.map Prod.fst := by
      rw [List.map_cons, List.nodup_cons] at hnd
      exact hnd.1
    rw [fold_header_lines hs2 (acc ++ [(kv.1, kv.2)])
      (fun x hx => hok x (List.mem_cons_of_mem _ hx)) hnd2 ?hacc2]
    · simp
    case hacc2 =>
      intro x hx
      rw [List.map_append, List.mem_append]
      rintro (hm | hm)
      · exact hacc x (List.mem_cons_of_mem _ hx) hm
      · simp only [List.map_cons, List.map_nil, List.mem_singleton] at hm
        exact hhd (hm ▸ List.mem_map_of_mem _ hx)

theorem parseHeaders_roundtrip (hs : List (Str × Str))
    (h : ∀ kv ∈ hs, headerKVOk kv) (hnodup : (hs.map Prod.fst).Nodup) :
    parseHeaders
      (hs.flatMap fun kv => kv.1 ++ ':' :: ' ' :: kv.2 ++ ['\n']) [] = hs := by
  unfold parseHeaders
  rw [splitNL_headerVal hs h, List.foldl_append,
    fold_header_lines hs [] h hnodup (by simp)]
  simp [headerStep_nil]

theorem poStep_header_init (hs : List (Str × Str))
    (h : ∀ kv ∈ hs, headerKVOk kv) (hnodup : (hs.map Prod.fst).Nodup) :
    poStep ⟨[], []⟩ (headerBlockText hs) = ⟨hs, []⟩ := by
  have htne : jsTrim (headerBlockText hs) ≠ [] := by
    apply jsTrim_ne_nil_of_mem _ '#' _ (by decide)
    unfold headerBlockText
    apply mem_joinNL_of_mem _ hdrComment
    · unfold headerBlockLines
      simp
    · decide
  unfold poStep
  rw [if_neg htne]
  dsimp only
  rw [parseBlock_header hs h]
  rw [if_pos rfl]
  dsimp only
  rw [parseHeaders_roundtrip hs h hnodup]

theorem escCore_no_nl_cr (x : Str) (c : Char) (hc : c ∈ escCore x) :
    ¬ c = '\n' ∧ ¬ c = '\r' := by
  rw [escCore_eq] at hc
  rw [List.mem_flatMap] at hc
  obtain ⟨d, _, hcd⟩ := hc
  unfold escChar at hcd
  split_ifs at hcd with e1 e2 e3 e4 e5 <;>
    simp only [List.mem_cons, List.mem_singleton, List.not_mem_nil,
      or_false] at hcd
  · rcases hcd with rfl | rfl <;> exact ⟨by decide, by decide⟩
  · rcases hcd with rfl | rfl <;> exact ⟨by decide, by decide⟩
  · rcases hcd with rfl | rfl <;> exact ⟨by decide, by decide⟩
  · rcases hcd with rfl | rfl <;> exact ⟨by decide, by decide⟩
  · rcases hcd with rfl | rfl <;> exact ⟨by decide, by decide⟩
  · subst hcd
    exact ⟨e3, e5⟩

theorem nl_not_mem_escape (x : Str) : '\n' ∉ escapeString x := by
  intro hm
  unfold escapeString at hm
  rcases List.mem_cons.mp hm with hm | hm
  · exact absurd hm (by decide)
  · rcases List.mem_append.mp hm with hm | hm
    · exact (escCore_no_nl_cr x '\n' hm).1 rfl
    · rcases List.mem_cons.mp hm with hm | hm
      · exact absurd hm (by decide)
      · cases hm

theorem entryCoreLines_ok (e : TranslationEntry) (he : entryOk e) :
    ∀ l ∈ entryCoreLines e, l ≠ [] ∧ '\n' ∉ l := by
  obtain ⟨hm1, hgm, hgs, hctx, hcom, hid, hst⟩ := he
  intro l hl
  unfold entryCoreLines at hl
  rcases List.mem_append.mp hl with hl | hl
  · rcases List.mem_append.mp hl with hl | hl
    · cases hce : e.comments with
      | none => rw [hce] at hl; cases hl
      | some c =>
        rw [hce] at hl hcom
        obtain ⟨hc1, hc2, hc3⟩ := hcom
        dsimp only at hl
        rw [if_neg hc1] at hl
        rcases List.mem_cons.mp hl with rfl | hl
        · refine ⟨by simp, ?_⟩
          intro hm
          rcases List.mem_cons.mp hm with hm | hm
          · exact absurd hm (by decide)
          · rcases List.mem_cons.mp hm with hm | hm
            · exact absurd hm (by decide)
            · rcases List.mem_cons.mp hm with hm | hm
              · exact absurd hm (by decide)
              · exact (hc3 _ hm).1 rfl
        · cases hl
    · cases hcx : e.context with
      | none => rw [hcx] at hl; cases hl
      | some c =>
        rw [hcx] at hl hctx
        obtain ⟨hc1, hc2⟩ := hctx
        dsimp only at hl
        rw [if_neg hc1] at hl
        rcases List.mem_cons.mp hl with rfl | hl
        · refine ⟨by simp [msgctxtKW], ?_⟩
          intro hm
          rcases List.mem_append.mp hm with hm | hm
          · exact absurd hm (by decide)
          · exact nl_not_mem_escape c hm
        · cases hl
  · rcases List.mem_cons.mp hl with rfl | hl
    · refine ⟨by simp [msgidKW], ?_⟩
      intro hm
      rcases List.mem_append.mp hm with hm | hm
      · exact absurd hm (by decide)
      · exact nl_not_mem_escape e.msgid hm
    · rcases List.mem_cons.mp hl with rfl | hl
      · refine ⟨by simp [msgstrKW], ?_⟩
        intro hm
        rcases List.mem_append.mp hm with hm | hm
        · exact absurd hm (by decide)
        · exact nl_not_mem_escape e.msgstr hm
      · cases hl

theorem blockStep_fold_core (st : BState) (e : TranslationEntry)
    (hgm : goodStr e.msgid) (hgs : goodStr e.msgstr) :
    [msgidKW ++ escapeString e.msgid,
     msgstrKW ++ escapeString e.msgstr].foldl blockStep st =
      { st with msgid := e.msgid, msgstr := e.msgstr,
                cur := some PField.fmsgstr } := by
  rw [List.foldl_cons, blockStep_msgid_line, List.foldl_cons,
    blockStep_msgstr_line, List.foldl_nil,
    extract_escape_eq _ hgm, extract_escape_eq _ hgs]

theorem entryCoreLines_ne_nil (e : TranslationEntry) :
    entryCoreLines e ≠ [] := by
  unfold entryCoreLines
  intro hc
  rcases List.append_eq_nil.mp hc with ⟨_, h2⟩
  cases h2

theorem parseBlock_entry (e : TranslationEntry) (he : entryOk e) :
    parseBlock (entryBlockText e) =
      { msgid := e.msgid, msgstr := e.msgstr, context := e.context,
        comments := e.comments } := by
  obtain ⟨hm1, hgm, hgs, hctx, hcom, hid, hst⟩ := he
  have hlines := entryCoreLines_ok e ⟨hm1, hgm, hgs, hctx, hcom, hid, hst⟩
  unfold parseBlock entryBlockText
  rw [splitNL_joinNL _ (fun l hl => (hlines l hl).2) (entryCoreLines_ne_nil e)]
  unfold entryCoreLines
  cases hce : e.comments with
  | none =>
    cases hcx : e.context with
    | none =>
      dsimp only
      rw [show ([] : List Str) ++ [] ++
          [msgidKW ++ escapeString e.msgid,
           msgstrKW ++ escapeString e.msgstr] =
        [msgidKW ++ escapeString e.msgid, msgstrKW ++ escapeString e.msgstr]
        from rfl]
      rw [blockStep_fold_core _ e hgm hgs]
      rfl
    | some x =>
      rw [hcx] at hctx
      obtain ⟨hx1, hx2⟩ := hctx
      dsimp only
      rw [if_neg hx1]
      rw [show ([] : List Str) ++ [msgctxtKW ++ escapeString x] ++
          [msgidKW ++ escapeString e.msgid,
           msgstrKW ++ escapeString e.msgstr] =
        (msgctxtKW ++ escapeString x) ::
          [msgidKW ++ escapeString e.msgid, msgstrKW ++ escapeString e.msgstr]
        from rfl]
      rw [List.foldl_cons, blockStep_msgctxt_line, blockStep_fold_core _ e hgm hgs,
        extract_escape_eq _ hx2]
      rfl
  | some c =>
    rw [hce] at hcom
    obtain ⟨hc1, hc2, hc3⟩ := hcom
    cases hcx : e.context with
    | none =>
      dsimp only
      rw [if_neg hc1]
      rw [show [['#', '.', ' '] ++ c] ++ ([] : List Str) ++
          [msgidKW ++ escapeString e.msgid,
           msgstrKW ++ escapeString e.msgstr] =
        (['#', '.', ' '] ++ c) ::
          [msgidKW ++ escapeString e.msgid, msgstrKW ++ escapeString e.msgstr]
        from rfl]
      rw [List.foldl_cons, blockStep_comment_line _ c hc1 hc2,
        blockStep_fold_core _ e hgm hgs]
      show RawEntry.mk e.msgid e.msgstr none
        (if jsTrim ([] ++ c ++ [' ']) = [] then none
         else some (jsTrim ([] ++ c ++ [' ']))) = _
      rw [show ([] : Str) ++ c ++ [' '] = c ++ [' '] from rfl,
        jsTrim_concat_ws c ' ' (by decide), hc2, if_neg hc1]
    | some x =>
      rw [hcx] at hctx
      obtain ⟨hx1, hx2⟩ := hctx
      dsimp only
      rw [if_neg hc1, if_neg hx1]
      rw [show [['#', '.', ' '] ++ c] ++ [msgctxtKW ++ escapeString x] ++
          [msgidKW ++ escapeString e.msgid,
           msgstrKW ++ escapeString e.msgstr] =
        (['#', '.', ' '] ++ c) :: (msgctxtKW ++ escapeString x) ::
          [msgidKW ++ escapeString e.msgid, msgstrKW ++ escapeString e.msgstr]
        from rfl]
      rw [List.foldl_cons, blockStep_comment_line _ c hc1 hc2,
        List.foldl_cons, blockStep_msgctxt_line,
        blockStep_fold_core _ e hgm hgs, extract_escape_eq _ hx2]
      show RawEntry.mk e.msgid e.msgstr (some x)
        (if jsTrim ([] ++ c ++ [' ']) = [] then none
         else some (jsTrim ([] ++ c ++ [' ']))) = _
      rw [show ([] : Str) ++ c ++ [' '] = c ++ [' '] from rfl,
        jsTrim_concat_ws c ' ' (by decide), hc2, if_neg hc1]

theorem mem_entryBlockText_m (e : TranslationEntry) :
    'm' ∈ entryBlockText e := by
  apply mem_joinNL_of_mem _ (msgidKW ++ escapeString e.msgid)
  · unfold entryCoreLines
    simp
  · simp [msgidKW]

theorem poStep_entry (po : ParsedPO) (e : TranslationEntry)
    (he : entryOk e) :
    poStep po (entryBlockText e) = { po with entries := po.entries ++ [e] } := by
  have htne : jsTrim (entryBlockText e) ≠ [] :=
    jsTrim_ne_nil_of_mem _ 'm' (mem_entryBlockText_m e) (by decide)
  obtain ⟨hm1, hgm, hgs, hctx, hcom, hid, hst⟩ := he
  unfold poStep
  rw [if_neg htne]
  dsimp only
  rw [parseBlock_entry e ⟨hm1, hgm, hgs, hctx, hcom, hid, hst⟩]
  dsimp only
  rw [if_neg hm1]
  have hee : ({ id := e.context.getD [] ++ '_' :: e.msgid,
                msgid := e.msgid, msgstr := e.msgstr,
                context := e.context, comments := e.comments,
                status := if e.msgstr = [] then EStatus.pending
                          else EStatus.translated } : TranslationEntry) = e := by
    cases e with
    | mk i m s cx cm st =>
      simp only at hid hst ⊢
      simp [TranslationEntry.mk.injEq, hid, hst]
  rw [hee]

theorem fold_entry_blocks :
    ∀ (es : List TranslationEntry) (po : ParsedPO), (∀ x ∈ es, entryOk x) →
      (es.map entryCoreLines).foldl (fun p b => poStep p (joinNL b)) po =
        { po with entries := po.entries ++ es }
  | [], po, _ => by simp
  | e :: es2, po, h => by
    rw [List.map_cons, List.foldl_cons]
    rw [show joinNL (entryCoreLines e) = entryBlockText e from rfl]
    rw [poStep_entry po e (h e (by simp))]
    rw [fold_entry_blocks es2 _ (fun x hx => h x (List.mem_cons_of_mem _ hx))]
    simp

theorem cr_not_mem_escape (x : Str) : '\r' ∉ escapeString x := by
  intro hm
  unfold escapeString at hm
  rcases List.mem_cons.mp hm with hm | hm
  · exact absurd hm (by decide)
  · rcases List.mem_append.mp hm with hm | hm
    · exact (escCore_no_nl_cr x '\r' hm).2 rfl
    · rcases List.mem_cons.mp hm with hm | hm
      · exact absurd hm (by decide)
      · cases hm

theorem cr_not_mem_headerLine (kv : Str × Str) (hkv : headerKVOk kv) :
    '\r' ∉ headerLine kv := by
  obtain ⟨_, _, hkp, hvp⟩ := hkv
  intro hm
  unfold headerLine at hm
  rcases List.mem_cons.mp hm with hm | hm
  · exact absurd hm (by decide)
  · rcases List.mem_append.mp hm with hm | hm
    · rcases List.mem_append.mp hm with hm | hm
      · exact (hkp.2 _ hm).2.1 rfl
      · rcases List.mem_cons.mp hm with hm | hm
        · exact absurd hm (by decide)
        · rcases List.mem_cons.mp hm with hm | hm
          · exact absurd hm (by decide)
          · exact (hvp.2 _ hm).2.1 rfl
    · rcases List.mem_cons.mp hm with hm | hm
      · exact absurd hm (by decide)
      · rcases List.mem_cons.mp hm with hm | hm
        · exact absurd hm (by decide)
        · rcases List.mem_cons.mp hm with hm | hm
          · exact absurd hm (by decide)
          · cases hm

theorem headerBlockLines_cr (hs : List (Str × Str))
    (h : ∀ kv ∈ hs, headerKVOk kv) :
    ∀ l ∈ headerBlockLines hs, '\r' ∉ l := by
  intro l hl
  unfold headerBlockLines at hl
  rcases List.mem_append.mp hl with hl | hl
  · rcases List.mem_cons.mp hl with rfl | hl
    · decide
    · rcases List.mem_cons.mp hl with rfl | hl
      · decide
      · rcases List.mem_cons.mp hl with rfl | hl
        · decide
        · cases hl
  · rw [List.mem_map] at hl
    obtain ⟨kv, hkv, rfl⟩ := hl
    exact cr_not_mem_headerLine kv (h kv hkv)

theorem entryCoreLines_cr (e : TranslationEntry) (he : entryOk e) :
    ∀ l ∈ entryCoreLines e, '\r' ∉ l := by
  obtain ⟨hm1, hgm, hgs, hctx, hcom, hid, hst⟩ := he
  intro l hl
  unfold entryCoreLines at hl
  rcases List.mem_append.mp hl with hl | hl
  · rcases List.mem_append.mp hl with hl | hl
    · cases hce : e.comments with
      | none => rw [hce] at hl; cases hl
      | some c =>
        rw [hce] at hl hcom
        obtain ⟨hc1, hc2, hc3⟩ := hcom
        dsimp only at hl
        rw [if_neg hc1] at hl
        rcases List.mem_cons.mp hl with rfl | hl
        · intro hm
          rcases List.mem_cons.mp hm with hm | hm
          · exact absurd hm (by decide)
          · rcases List.mem_cons.mp hm with hm | hm
            · exact absurd hm (by decide)
            · rcases List.mem_cons.mp hm with hm | hm
              · exact absurd hm (by decide)
              · exact (hc3 _ hm).2 rfl
        · cases hl
    · cases hcx : e.context with
      | none => rw [hcx] at hl; cases hl
      | some c =>
        rw [hcx] at hl hctx
        obtain ⟨hc1, hc2⟩ := hctx
        dsimp only at hl
        rw [if_neg hc1] at hl
        rcases List.mem_cons.mp hl with rfl | hl
        · intro hm
          rcases List.mem_append.mp hm with hm | hm
          · exact absurd hm (by decide)
          · exact cr_not_mem_escape c hm
        · cases hl
  · rcases List.mem_cons.mp hl with rfl | hl
    · intro hm
      rcases List.mem_append.mp hm with hm | hm
      · exact absurd hm (by decide)
      · exact cr_not_mem_escape e.msgid hm
    · rcases List.mem_cons.mp hl with rfl | hl
      · intro hm
        rcases List.mem_append.mp hm with hm | hm
        · exact absurd hm (by decide)
        · exact cr_not_mem_escape e.msgstr hm
      · cases hl

theorem cr_not_mem_generate (M : ParsedPO) (hw : wellFormedPO M) :
    '\r' ∉ generatePOFile M := by
  obtain ⟨hnodup, hkv, hent⟩ := hw
  rw [generate_eq M]
  intro hm
  rcases mem_joinNL _ '\r' hm with h | ⟨l, hl, hcl⟩
  · exact absurd h (by decide)
  · rw [List.mem_flatMap] at hl
    obtain ⟨b, hb, hlb⟩ := hl
    rcases List.mem_append.mp hlb with hlb | hlb
    · rcases List.mem_cons.mp hb with rfl | hb
      · exact headerBlockLines_cr M.headers hkv l hlb hcl
      · rw [List.mem_map] at hb
        obtain ⟨e, he, rfl⟩ := hb
        exact entryCoreLines_cr e (hent e he) l hlb hcl
    · rcases List.mem_cons.mp hlb with rfl | hlb
      · cases hcl
      · cases hlb

/-- C1 (amended): round-tripping holds for well-formed catalog models.
For every model `M` whose header keys are non-empty, colon-free,
backslash-free, self-trimmed and line-terminator-free (likewise the
header values), and whose entries satisfy the invariants `parsePOFile`
itself establishes (non-empty msgid, derived id and status, absent or
non-empty context, trimmed line-terminator-free comments) together with
the no-backslash-before-n/t/r condition needed for escaping to invert,
`parsePOFile (generatePOFile M) = M` with the same headers mapping and
the same entry sequence, field by field.  The unamended claim (any prior
parse result round-trips) is refuted by `C1_counterexample`: a parse can
produce an empty header key, which the generated file loses. -/
theorem C1_roundtrip_wellformed (M : ParsedPO) (hw : wellFormedPO M) :
    parsePOFile (generatePOFile M) = M := by
  obtain ⟨hnodup, hkv, hent⟩ := hw
  have hcr : '\r' ∉ generatePOFile M :=
    cr_not_mem_generate M ⟨hnodup, hkv, hent⟩
  have hok : ∀ b ∈ headerBlockLines M.headers ::
      M.entries.map entryCoreLines,
      b ≠ [] ∧ ∀ l ∈ b, l ≠ [] ∧ '\n' ∉ l := by
    intro b hb
    rcases List.mem_cons.mp hb with rfl | hb
    · exact ⟨by simp [headerBlockLines], headerBlockLines_ok M.headers hkv⟩
    · obtain ⟨e, he, rfl⟩ := List.mem_map.mp hb
      exact ⟨entryCoreLines_ne_nil e, entryCoreLines_ok e (hent e he)⟩
  unfold parsePOFile
  rw [normalize_id _ hcr, generate_eq M]
  rw [fold_gen_blocks _ ⟨[], []⟩ hok (by simp)]
  rw [List.foldl_cons]
  rw [show joinNL (headerBlockLines M.headers) =
    headerBlockText M.headers from rfl]
  rw [poStep_header_init M.headers hkv hnodup]
  rw [fold_entry_blocks M.entries ⟨M.headers, []⟩ hent]
  cases M
  simp

/-- C1 counterexample: the model parsed from
`msgid ""` / `msgstr " : v"` has the empty-string header key, and
regenerating then reparsing drops that header, so the claimed
round-trip for arbitrary prior parse results fails. -/
theorem C1_counterexample :
    parsePOFile (generatePOFile (parsePOFile cexC1Text)) ≠
      parsePOFile cexC1Text := by decide

/-- C1 witness: the model parsed from a concrete well-formed file is
well formed and round-trips. -/
theorem C1_witness :
    wellFormedPO (parsePOFile sampleText) ∧
      parsePOFile (generatePOFile (parsePOFile sampleText)) =
        parsePOFile sampleText :=
  ⟨by decide, C1_roundtrip_wellformed (parsePOFile sampleText) (by decide)⟩
